import Mathlib

/-!
# Preroll / postroll marker renderer and held-key suppression

A shallow embedding of

* `src/waveform/renderers/allshader/waveformrendererpreroll.cpp`
  (`WaveformRendererPreroll::paintGL`, `generateTexture`, `drawPattern`), and
* `src/controllers/keyboard/keyboardeventfilter.h`
  (`KeyboardEventFilter::shouldSkipHeldKey`).

The renderer is embedded at two levels.

* Exact level.  `paintGL`, the cache check and the two draw blocks are embedded
  with `double` and `float` values as exact rationals (`ℚ`): every operation is
  the exact one and the narrowing to a `float` parameter is the identity.  The
  literals `0.4f` and `0.5f` are the rationals `2/5` and `1/2`.  Division
  follows `ℚ` (`q / 0 = 0`), so the statements that depend on a quotient carry
  the hypothesis that the divisor is positive.  This level carries the
  properties that rounding does not decide: which calls are issued, when the
  guard fires, the formula of the marker length, the raw anchors, and the
  relation between the repetitions and the drawn quad.
* Binary floating-point level.  The outcome of the two folds (lines 107-113 and
  131-135) is decided by the rounding of a quotient just before `std::ceil`,
  and the cached length is the requested length narrowed to `float`
  (line 179).  These lines are embedded a second time in IEEE-754 arithmetic:
  `toDouble` and `toFloat` round an exact result to the nearest binary64 or
  binary32 value, ties to even, with gradual underflow, and return `none`
  where the result overflows (the code then continues with an infinity).  A
  product is rounded before it is subtracted (no fused multiply-add).
* `int` values are integers; the only `int` arithmetic of the code,
  `totalVSamples - currentVSamplePosition` (line 124), wraps to 32 bits.
* `paintGL` is a state transformer on the three members it reads and writes
  (`m_markerLength`, `m_markerBreadth`, `m_pTexture`) that also returns the
  list of `generateTexture` and `drawPattern` calls it issued, in order.
* The values `paintGL` reads through `m_waveformRenderer`, and the helper
  `createTexture` of `util/texture.h`, are not part of the embedded sources;
  they are fields of the record `WaveformWidgetRenderer`.  The relation between
  the displayed fractions and the play position is produced outside the
  embedded sources as well; it is `viewportConsistent`, modelled from the
  specification of the viewport.
-/

namespace allshader

/-- Image handed to `createTexture`: only its pixel dimensions matter here. -/
structure QImage where
  width : ℤ
  height : ℤ
deriving DecidableEq

/-- Texture object held in `m_pTexture`, remembered by the image it was made of. -/
structure QOpenGLTexture where
  image : QImage
deriving DecidableEq

/-- Values read through `m_waveformRenderer` during one frame, together with the
external helper `createTexture` (a `none` result is the null pointer). -/
structure WaveformWidgetRenderer where
  trackInfo : Bool
  firstDisplayedPosition : ℚ
  lastDisplayedPosition : ℚ
  playMarkerPosition : ℚ
  visualSamplePerPixel : ℚ
  length : ℚ
  playPosVSample : ℤ
  totalVSample : ℤ
  breadth : ℚ
  devicePixelRatio : ℚ
  createTexture : QImage → Option QOpenGLTexture

/-- Members of `WaveformRendererPreroll` that `paintGL` reads and writes. -/
structure WaveformRendererPreroll where
  m_markerLength : ℚ
  m_markerBreadth : ℚ
  m_pTexture : Option QOpenGLTexture
deriving DecidableEq

/-- Calls issued by `paintGL` that are observed by the model. -/
inductive Call where
  | generateTexture (markerLength markerBreadth : ℚ)
  | drawPattern (x1 y1 x2 y2 repetitions : ℚ) (flip : Bool)
deriving DecidableEq

/-- Conversion `static_cast<int>(q)`: truncation toward zero. -/
def toInt (q : ℚ) : ℤ :=
  if 0 ≤ q then ⌊q⌋ else ⌈q⌉

/-- Marker length of `paintGL` (line 64): `40.0 / vSamplesPerPixel`. -/
def markerLength (vSamplesPerPixel : ℚ) : ℚ :=
  40 / vSamplesPerPixel

/-- Marker breadth of `paintGL` (line 59): `getBreadth() * 0.4f`. -/
def markerBreadth (breadth : ℚ) : ℚ :=
  breadth * (2 / 5)

/-- Tolerance `epsilon` of the cache guard (line 70). -/
def epsilon : ℚ := 1 / 2

/-- Cache guard of `paintGL` (lines 71-72). -/
def needsRegeneration (self : WaveformRendererPreroll) (length breadth : ℚ) : Prop :=
  |self.m_markerLength - length| > epsilon ∨ |self.m_markerBreadth - breadth| > epsilon

instance (self : WaveformRendererPreroll) (length breadth : ℚ) :
    Decidable (needsRegeneration self length breadth) := by
  unfold needsRegeneration
  infer_instance

/-- Body of `generateTexture` (lines 179-219): stores the requested dimensions
and replaces the texture by the one made of the freshly painted image. -/
def generateTexture (r : WaveformWidgetRenderer) (_self : WaveformRendererPreroll)
    (markerLength markerBreadth : ℚ) : WaveformRendererPreroll :=
  let devicePixelRatio := r.devicePixelRatio
  let imagePixelW := toInt (markerLength * devicePixelRatio + 1 / 2)
  let imagePixelH := toInt (markerBreadth * devicePixelRatio + 1 / 2)
  { m_markerLength := markerLength
    m_markerBreadth := markerBreadth
    m_pTexture := r.createTexture ⟨imagePixelW, imagePixelH⟩ }

/-- Arithmetic of a C++ `int`: wrap of an integer to 32-bit two's complement. -/
def wrapInt (z : ℤ) : ℤ :=
  (z + 2147483648) % 4294967296 - 2147483648

/-- Values of the C++ type `int`. -/
def isInt (z : ℤ) : Prop :=
  -2147483648 ≤ z ∧ z ≤ 2147483647

/-- Raw preroll anchor (lines 102-106): pixel of the right-most triangle tip. -/
def prerollAnchor (playMarkerPosition length vSamplesPerPixel : ℚ)
    (currentVSamplePosition : ℤ) : ℚ :=
  let numberOfVSamples := length * vSamplesPerPixel
  let triangleTipVSamplePosition := playMarkerPosition * numberOfVSamples - currentVSamplePosition
  triangleTipVSamplePosition / vSamplesPerPixel

/-- Raw postroll anchor (lines 124-130): pixel of the left-most triangle tip.
The subtraction of line 124 is an `int` subtraction. -/
def postrollAnchor (playMarkerPosition length vSamplesPerPixel : ℚ)
    (currentVSamplePosition totalVSamples : ℤ) : ℚ :=
  let numberOfVSamples := length * vSamplesPerPixel
  let remainingVSamples : ℤ := wrapInt (totalVSamples - currentVSamplePosition)
  let triangleTipVSamplePosition := playMarkerPosition * numberOfVSamples + remainingVSamples
  triangleTipVSamplePosition / vSamplesPerPixel

/-- Preroll fold (lines 107-113) in exact arithmetic,
`limit = getLength() + markerLength`. -/
def prerollFold (length markerLength x : ℚ) : ℚ :=
  let limit := length + markerLength
  if x ≥ limit then x - (⌈(x - limit) / markerLength⌉ : ℚ) * markerLength else x

/-- Postroll fold (lines 131-135) in exact arithmetic, `limit = -markerLength`. -/
def postrollFold (markerLength x : ℚ) : ℚ :=
  let limit := -markerLength
  if x ≤ limit then x + (⌈(limit - x) / markerLength⌉ : ℚ) * markerLength else x

/-- Preroll block of `paintGL` (lines 100-121): the `drawPattern` call it issues. -/
def prerollDraw (r : WaveformWidgetRenderer) : Call :=
  let markerBreadth := markerBreadth r.breadth
  let halfBreadth := r.breadth * (1 / 2)
  let halfMarkerBreadth := markerBreadth * (1 / 2)
  let markerLength := markerLength r.visualSamplePerPixel
  let x := prerollFold r.length markerLength
    (prerollAnchor r.playMarkerPosition r.length r.visualSamplePerPixel r.playPosVSample)
  Call.drawPattern 0 (halfBreadth - halfMarkerBreadth) x (halfBreadth + halfMarkerBreadth)
    (x / markerLength) true

/-- Postroll block of `paintGL` (lines 123-144): the `drawPattern` call it issues. -/
def postrollDraw (r : WaveformWidgetRenderer) : Call :=
  let markerBreadth := markerBreadth r.breadth
  let halfBreadth := r.breadth * (1 / 2)
  let halfMarkerBreadth := markerBreadth * (1 / 2)
  let markerLength := markerLength r.visualSamplePerPixel
  let x := postrollFold markerLength
    (postrollAnchor r.playMarkerPosition r.length r.visualSamplePerPixel r.playPosVSample
      r.totalVSample)
  let xEnd := r.length
  Call.drawPattern x (halfBreadth - halfMarkerBreadth) xEnd (halfBreadth + halfMarkerBreadth)
    ((xEnd - x) / markerLength) false

/-- Cache check of `paintGL` (lines 70-76): new members and the calls issued. -/
def cacheCheck (self : WaveformRendererPreroll) (r : WaveformWidgetRenderer) :
    WaveformRendererPreroll × List Call :=
  let markerBreadth := markerBreadth r.breadth
  let markerLength := markerLength r.visualSamplePerPixel
  if needsRegeneration self markerLength markerBreadth then
    (generateTexture r self markerLength markerBreadth,
      [Call.generateTexture markerLength markerBreadth])
  else
    (self, [])

/-- The frame function `WaveformRendererPreroll::paintGL` (lines 34-151). -/
def paintGL (self : WaveformRendererPreroll) (r : WaveformWidgetRenderer) :
    WaveformRendererPreroll × List Call :=
  if !r.trackInfo then
    (self, [])
  else
    let preRollVisible : Bool := decide (r.firstDisplayedPosition < 0)
    let postRollVisible : Bool := decide (r.lastDisplayedPosition > 1)
    if !(preRollVisible || postRollVisible) then
      (self, [])
    else
      let checked := cacheCheck self r
      if checked.1.m_pTexture.isNone then
        checked
      else
        (checked.1,
          checked.2
            ++ (if preRollVisible then [prerollDraw r] else [])
            ++ (if postRollVisible then [postrollDraw r] else []))

/-- Left edge `x1` of the quad of a `drawPattern` call (`0` for other calls). -/
def Call.x1 : Call → ℚ
  | Call.drawPattern x1 _ _ _ _ _ => x1
  | Call.generateTexture _ _ => 0

/-- Right edge `x2` of the quad of a `drawPattern` call (`0` for other calls). -/
def Call.x2 : Call → ℚ
  | Call.drawPattern _ _ x2 _ _ _ => x2
  | Call.generateTexture _ _ => 0

/-- Argument `repetitions` of a `drawPattern` call (`0` for other calls). -/
def Call.repetitions : Call → ℚ
  | Call.drawPattern _ _ _ _ repetitions _ => repetitions
  | Call.generateTexture _ _ => 0

/-- Argument `flip` of a `drawPattern` call (`false` for other calls). -/
def Call.flip : Call → Bool
  | Call.drawPattern _ _ _ _ _ flip => flip
  | Call.generateTexture _ _ => false

/-- Identity factory standing for a `createTexture` that always succeeds. -/
def textureOf (image : QImage) : Option QOpenGLTexture :=
  some ⟨image⟩

/-- The frame of the end-to-end scenario at zoom `v`: a track of 1,000,000
visual samples at position 0, displayed fractions `[-0.1, 0.05]`, a viewport of
100 by 50 pixels with the play marker at the left edge. -/
def frameAtZoom (v : ℚ) : WaveformWidgetRenderer :=
  { trackInfo := true
    firstDisplayedPosition := -1 / 10
    lastDisplayedPosition := 1 / 20
    playMarkerPosition := 0
    visualSamplePerPixel := v
    length := 100
    playPosVSample := 0
    totalVSample := 1000000
    breadth := 50
    devicePixelRatio := 1
    createTexture := textureOf }

/-- The `drawPattern` calls of a call list, in order. -/
def drawCalls : List Call → List Call
  | [] => []
  | Call.generateTexture _ _ :: cs => drawCalls cs
  | Call.drawPattern x1 y1 x2 y2 n f :: cs => Call.drawPattern x1 y1 x2 y2 n f :: drawCalls cs

/-- Frames that reach the cache check: a track is loaded and a zone is visible. -/
def reachesCacheCheck (r : WaveformWidgetRenderer) : Prop :=
  r.trackInfo = true ∧ (r.firstDisplayedPosition < 0 ∨ r.lastDisplayedPosition > 1)

/-- Modelled from the spec: the viewport model (section 4.1), whose code is not
part of the embedded sources.  `firstDisplayedPosition` and
`lastDisplayedPosition` are the normalized track positions shown at the left
and the right edge of the viewport under the affine map of slope
`visualSamplePerPixel` that shows the play position at the play marker: for a
track of `t > 0` visual samples the left edge shows the visual sample
`c - m * L * v` and the right edge the visual sample `c - m * L * v + L * v`. -/
def viewportConsistent (r : WaveformWidgetRenderer) : Prop :=
  0 < r.totalVSample ∧
  r.firstDisplayedPosition * r.totalVSample =
    r.playPosVSample - r.playMarkerPosition * r.length * r.visualSamplePerPixel ∧
  r.lastDisplayedPosition * r.totalVSample =
    r.playPosVSample - r.playMarkerPosition * r.length * r.visualSamplePerPixel
      + r.length * r.visualSamplePerPixel

/-- A frame of a viewport of 100 by 50 pixels with the play marker at the
centre, at zoom `v`, position `c` of `t` visual samples, whose displayed
fractions follow `viewportConsistent`. -/
def frameOfViewport (v : ℚ) (c t : ℤ) : WaveformWidgetRenderer :=
  { trackInfo := true
    firstDisplayedPosition := (c - 1 / 2 * 100 * v) / t
    lastDisplayedPosition := (c - 1 / 2 * 100 * v + 100 * v) / t
    playMarkerPosition := 1 / 2
    visualSamplePerPixel := v
    length := 100
    playPosVSample := c
    totalVSample := t
    breadth := 50
    devicePixelRatio := 1
    createTexture := textureOf }

/-- Rounding of a rational to the nearest integer, ties to the even one. -/
def roundHalfEven (q : ℚ) : ℤ :=
  if q - ⌊q⌋ < 1 / 2 then ⌊q⌋
  else if 1 / 2 < q - ⌊q⌋ then ⌊q⌋ + 1
  else if ⌊q⌋ % 2 = 0 then ⌊q⌋ else ⌊q⌋ + 1

/-- Exponent of the unit in the last place of a binary floating-point format
of precision `prec` and least normal exponent `emin` at the value `q`
(gradual underflow below `2 ^ emin`). -/
def lastPlace (prec : ℕ) (emin : ℤ) (q : ℚ) : ℤ :=
  max (Int.log 2 |q|) emin - ((prec : ℤ) - 1)

/-- Rounding to the nearest value of a binary floating-point format, ties to
even, with an unbounded upper exponent range. -/
def roundBinary (prec : ℕ) (emin : ℤ) (q : ℚ) : ℚ :=
  (roundHalfEven (q / (2 : ℚ) ^ lastPlace prec emin q) : ℚ) * (2 : ℚ) ^ lastPlace prec emin q

/-- Rounding to binary64 (`double`) with an unbounded upper exponent range. -/
def roundDouble (q : ℚ) : ℚ :=
  roundBinary 53 (-1022) q

/-- Rounding to binary32 (`float`) with an unbounded upper exponent range. -/
def roundFloat (q : ℚ) : ℚ :=
  roundBinary 24 (-126) q

/-- Result of a `double` operation whose exact value is `q`: the nearest
binary64 value, or `none` when it overflows. -/
def toDouble (q : ℚ) : Option ℚ :=
  if |roundDouble q| < (2 : ℚ) ^ (1024 : ℕ) then some (roundDouble q) else none

/-- Narrowing of a `double` to `float`: the nearest binary32 value, or `none`
when it overflows. -/
def toFloat (q : ℚ) : Option ℚ :=
  if |roundFloat q| < (2 : ℚ) ^ (128 : ℕ) then some (roundFloat q) else none

/-- Preroll fold (lines 107-113) in binary64 arithmetic: the value of `x` after
the `if`, for `double` values `length`, `markerLength` and `x`. -/
def prerollFoldDouble (length markerLength x : ℚ) : Option ℚ :=
  (toDouble (length + markerLength)).bind fun limit =>
    if x ≥ limit then
      (toDouble (x - limit)).bind fun difference =>
        (toDouble (difference / markerLength)).bind fun quotient =>
          (toDouble ((⌈quotient⌉ : ℚ) * markerLength)).bind fun product =>
            toDouble (x - product)
    else
      some x

/-- Postroll fold (lines 131-135) in binary64 arithmetic: the value of `x`
after the `if`, for `double` values `markerLength` and `x`. -/
def postrollFoldDouble (markerLength x : ℚ) : Option ℚ :=
  let limit := -markerLength
  if x ≤ limit then
    (toDouble (limit - x)).bind fun difference =>
      (toDouble (difference / markerLength)).bind fun quotient =>
        (toDouble ((⌈quotient⌉ : ℚ) * markerLength)).bind fun product =>
          toDouble (x + product)
  else
    some x

/-- Bound on the rounding accumulated by a fold of the anchor `x` against
`limit` with pitch `markerLength`. -/
def foldTolerance (x limit markerLength : ℚ) : ℚ :=
  (|x| + |limit| + markerLength) / 2 ^ 50

/-- The length test of the cache guard (line 71) on the frame after a
regeneration at the same zoom, in floating-point arithmetic: `markerLength` is
`40.0 / vSamplesPerPixel` (line 64), `generateTexture` stores it narrowed to
`float` (lines 179-181), and the next frame compares the stored value with the
same `double`. -/
def storedLengthGuard (vSamplesPerPixel : ℚ) : Option Bool :=
  (toDouble (40 / vSamplesPerPixel)).bind fun markerLength =>
    (toFloat markerLength).bind fun stored =>
      (toDouble (stored - markerLength)).bind fun difference =>
        some (decide (|difference| > epsilon))

end allshader

namespace KeyboardEventFilter

/-- Pointer to a `ControlObject`; the object itself is outside the sources. -/
abbrev ControlObjectPtr := ℕ

/-- Entry of the active key list (`KeyDownInformation`, lines 29-39). -/
structure KeyDownInformation where
  keyId : ℤ
  modifiers : ℤ
  pControl : ControlObjectPtr
deriving DecidableEq

/-- The loop of `shouldSkipHeldKey` (lines 47-52) over the remaining entries,
with `getKbdRepeatable` the external accessor of `ControlObject`. -/
def shouldSkipHeldKeyLoop (getKbdRepeatable : ControlObjectPtr → Bool) (keyId : ℤ) :
    List KeyDownInformation → Bool
  | [] => false
  | keyDownInfo :: rest =>
    if keyDownInfo.keyId = keyId ∧ !getKbdRepeatable keyDownInfo.pControl then
      true
    else
      shouldSkipHeldKeyLoop getKbdRepeatable keyId rest

/-- The method `shouldSkipHeldKey` (lines 46-53) as a state transformer on
`m_qActiveKeyList`: the returned pair is the result and the list afterwards. -/
def shouldSkipHeldKey (getKbdRepeatable : ControlObjectPtr → Bool)
    (m_qActiveKeyList : List KeyDownInformation) (keyId : ℤ) :
    Bool × List KeyDownInformation :=
  (shouldSkipHeldKeyLoop getKbdRepeatable keyId m_qActiveKeyList, m_qActiveKeyList)

end KeyboardEventFilter

/-! ## Auxiliary facts about the exact level -/

namespace allshader

/-- Scaling a quotient's ceiling back by a positive pitch brackets the dividend
within one pitch from above. -/
theorem ceil_div_mul_bounds (p a : ℚ) (hp : 0 < p) :
    a ≤ (⌈a / p⌉ : ℚ) * p ∧ (⌈a / p⌉ : ℚ) * p < a + p := by
  constructor
  · have h := Int.le_ceil (a / p)
    rwa [div_le_iff₀ hp] at h
  · have h := mul_lt_mul_of_pos_right (Int.ceil_lt_add_one (a / p)) hp
    rwa [add_mul, div_mul_cancel₀ _ hp.ne', one_mul] at h

/-- The fold branch of the preroll block, when it is taken. -/
theorem prerollFold_of_ge (L p x : ℚ) (hx : x ≥ L + p) :
    prerollFold L p x = x - (⌈(x - (L + p)) / p⌉ : ℚ) * p := by
  simp [prerollFold, hx]

/-- The preroll anchor is kept when the fold branch is not taken. -/
theorem prerollFold_of_lt (L p x : ℚ) (hx : x < L + p) : prerollFold L p x = x := by
  have h : ¬ (x ≥ L + p) := not_le.mpr hx
  simp [prerollFold, h]

/-- The fold branch of the postroll block, when it is taken. -/
theorem postrollFold_of_le (p x : ℚ) (hx : x ≤ -p) :
    postrollFold p x = x + (⌈(-p - x) / p⌉ : ℚ) * p := by
  simp [postrollFold, hx]

/-- The postroll anchor is kept when the fold branch is not taken. -/
theorem postrollFold_of_gt (p x : ℚ) (hx : -p < x) : postrollFold p x = x := by
  have h : ¬ (x ≤ -p) := not_le.mpr hx
  simp [postrollFold, h]

/-- A folded preroll anchor lies in the half-open interval `(L, L + p]`. -/
theorem prerollFold_mem_Ioc (L p x : ℚ) (hp : 0 < p) (hx : x ≥ L + p) :
    L < prerollFold L p x ∧ prerollFold L p x ≤ L + p := by
  rw [prerollFold_of_ge L p x hx]
  obtain ⟨h1, h2⟩ := ceil_div_mul_bounds p (x - (L + p)) hp
  constructor <;> linarith

/-- A folded postroll anchor lies in the half-open interval `[-p, 0)`. -/
theorem postrollFold_mem_Ico (p x : ℚ) (hp : 0 < p) (hx : x ≤ -p) :
    -p ≤ postrollFold p x ∧ postrollFold p x < 0 := by
  rw [postrollFold_of_le p x hx]
  obtain ⟨h1, h2⟩ := ceil_div_mul_bounds p (-p - x) hp
  constructor <;> linarith

/-- A frame without a track issues no call and keeps the members. -/
theorem paintGL_no_track (self : WaveformRendererPreroll) (r : WaveformWidgetRenderer)
    (ht : r.trackInfo = false) : paintGL self r = (self, []) := by
  simp [paintGL, ht]

/-- A frame with neither zone visible issues no call and keeps the members. -/
theorem paintGL_not_visible (self : WaveformRendererPreroll) (r : WaveformWidgetRenderer)
    (hf : ¬ r.firstDisplayedPosition < 0) (hl : ¬ r.lastDisplayedPosition > 1) :
    paintGL self r = (self, []) := by
  simp only [paintGL, hf, hl, gt_iff_lt, decide_False, Bool.or_self, Bool.not_false, if_true,
    ite_self]

/-- A frame that reaches the cache check and holds no texture afterwards stops
after the check. -/
theorem paintGL_no_texture (self : WaveformRendererPreroll) (r : WaveformWidgetRenderer)
    (hr : reachesCacheCheck r) (hx : (cacheCheck self r).1.m_pTexture = none) :
    paintGL self r = cacheCheck self r := by
  obtain ⟨ht, hv⟩ := hr
  have hb : (decide (r.firstDisplayedPosition < 0) || decide (r.lastDisplayedPosition > 1))
      = true := by
    rcases hv with h | h <;> simp [h]
  simp [paintGL, ht, hb, hx]

/-- A frame that reaches the cache check and holds a texture afterwards draws
each visible zone once, preroll first. -/
theorem paintGL_texture (self : WaveformRendererPreroll) (r : WaveformWidgetRenderer)
    (hr : reachesCacheCheck r) (hx : (cacheCheck self r).1.m_pTexture ≠ none) :
    paintGL self r = ((cacheCheck self r).1,
      (cacheCheck self r).2
        ++ (if r.firstDisplayedPosition < 0 then [prerollDraw r] else [])
        ++ (if r.lastDisplayedPosition > 1 then [postrollDraw r] else [])) := by
  obtain ⟨ht, hv⟩ := hr
  have hb : (decide (r.firstDisplayedPosition < 0) || decide (r.lastDisplayedPosition > 1))
      = true := by
    rcases hv with h | h <;> simp [h]
  have hn : (cacheCheck self r).1.m_pTexture.isNone = false := by
    cases h : (cacheCheck self r).1.m_pTexture with
    | none => exact absurd h hx
    | some t => rfl
  simp [paintGL, ht, hb, hn]

/-- In every frame the members after `paintGL` are those after the cache check
when it is reached, and the old ones otherwise. -/
theorem paintGL_fst (self : WaveformRendererPreroll) (r : WaveformWidgetRenderer)
    (hr : reachesCacheCheck r) : (paintGL self r).1 = (cacheCheck self r).1 := by
  by_cases hx : (cacheCheck self r).1.m_pTexture = none
  · rw [paintGL_no_texture self r hr hx]
  · rw [paintGL_texture self r hr hx]

/-- The cache check when the guard fires. -/
theorem cacheCheck_of_needs (self : WaveformRendererPreroll) (r : WaveformWidgetRenderer)
    (h : needsRegeneration self (markerLength r.visualSamplePerPixel) (markerBreadth r.breadth)) :
    cacheCheck self r =
      (generateTexture r self (markerLength r.visualSamplePerPixel) (markerBreadth r.breadth),
        [Call.generateTexture (markerLength r.visualSamplePerPixel) (markerBreadth r.breadth)]) := by
  simp only [cacheCheck, if_pos h]

/-- The cache check when the guard does not fire. -/
theorem cacheCheck_of_not_needs (self : WaveformRendererPreroll) (r : WaveformWidgetRenderer)
    (h : ¬ needsRegeneration self (markerLength r.visualSamplePerPixel)
      (markerBreadth r.breadth)) :
    cacheCheck self r = (self, []) := by
  simp only [cacheCheck, if_neg h]

/-- Extracting the draw calls distributes over concatenation. -/
theorem drawCalls_append (cs ds : List Call) :
    drawCalls (cs ++ ds) = drawCalls cs ++ drawCalls ds := by
  induction cs with
  | nil => simp [drawCalls]
  | cons c cs ih =>
    cases c with
    | generateTexture a b => simp [drawCalls, ih]
    | drawPattern x1 y1 x2 y2 n f => simp [drawCalls, ih]

/-- The preroll block issues a `drawPattern` call. -/
theorem drawCalls_prerollDraw (r : WaveformWidgetRenderer) :
    drawCalls [prerollDraw r] = [prerollDraw r] := rfl

/-- The postroll block issues a `drawPattern` call. -/
theorem drawCalls_postrollDraw (r : WaveformWidgetRenderer) :
    drawCalls [postrollDraw r] = [postrollDraw r] := rfl

/-- The cache check issues no draw call. -/
theorem drawCalls_cacheCheck (self : WaveformRendererPreroll) (r : WaveformWidgetRenderer) :
    drawCalls (cacheCheck self r).2 = [] := by
  unfold cacheCheck
  dsimp only
  split <;> rfl

/-- A frame that does not reach the cache check issues no call and keeps the members. -/
theorem paintGL_not_reaches (self : WaveformRendererPreroll) (r : WaveformWidgetRenderer)
    (hr : ¬ reachesCacheCheck r) : paintGL self r = (self, []) := by
  cases ht : r.trackInfo with
  | false => exact paintGL_no_track self r ht
  | true =>
    have hv : ¬ (r.firstDisplayedPosition < 0 ∨ r.lastDisplayedPosition > 1) :=
      fun h => hr ⟨ht, h⟩
    exact paintGL_not_visible self r (fun h => hv (Or.inl h)) (fun h => hv (Or.inr h))

/-- An `int` subtraction that does not overflow is the exact one. -/
theorem wrapInt_of_isInt (z : ℤ) (h : isInt z) : wrapInt z = z := by
  obtain ⟨h1, h2⟩ := h
  unfold wrapInt
  omega

/-- The difference of two `int` values with a positive minuend wraps downwards
only. -/
theorem wrapInt_sub_le (c t : ℤ) (hc : isInt c) (ht : isInt t) (h0 : 0 < t) :
    wrapInt (t - c) ≤ t - c := by
  obtain ⟨c1, c2⟩ := hc
  obtain ⟨t1, t2⟩ := ht
  unfold wrapInt
  omega

/-- The draw calls of a frame are the preroll call, when the preroll zone is
visible, and the postroll call, when the postroll zone is visible. -/
theorem mem_drawCalls_paintGL (self : WaveformRendererPreroll) (r : WaveformWidgetRenderer)
    (call : Call) (h : call ∈ drawCalls (paintGL self r).2) :
    (r.firstDisplayedPosition < 0 ∧ call = prerollDraw r) ∨
      (r.lastDisplayedPosition > 1 ∧ call = postrollDraw r) := by
  by_cases hr : reachesCacheCheck r
  · by_cases hx : (cacheCheck self r).1.m_pTexture = none
    · rw [paintGL_no_texture self r hr hx, drawCalls_cacheCheck] at h
      simp at h
    · rw [paintGL_texture self r hr hx] at h
      simp only [drawCalls_append, drawCalls_cacheCheck, List.nil_append, List.mem_append] at h
      rcases h with h | h
      · by_cases hf : r.firstDisplayedPosition < 0
        · rw [if_pos hf, drawCalls_prerollDraw, List.mem_singleton] at h
          exact Or.inl ⟨hf, h⟩
        · rw [if_neg hf] at h
          simp [drawCalls] at h
      · by_cases hl : r.lastDisplayedPosition > 1
        · rw [if_pos hl, drawCalls_postrollDraw, List.mem_singleton] at h
          exact Or.inr ⟨hl, h⟩
        · rw [if_neg hl] at h
          simp [drawCalls] at h
  · rw [paintGL_not_reaches self r hr] at h
    simp [drawCalls] at h

/-- On a frame of a consistent viewport that shows the preroll zone, the
preroll anchor handed to `drawPattern` is positive. -/
theorem prerollDraw_x2_pos (r : WaveformWidgetRenderer) (hv : 0 < r.visualSamplePerPixel)
    (hL : 0 ≤ r.length) (hview : viewportConsistent r) (hf : r.firstDisplayedPosition < 0) :
    0 < (prerollDraw r).x2 := by
  obtain ⟨ht, h1, -⟩ := hview
  have htq : (0 : ℚ) < (r.totalVSample : ℚ) := by exact_mod_cast ht
  have hneg : r.firstDisplayedPosition * r.totalVSample < 0 := mul_neg_of_neg_of_pos hf htq
  have hx : 0 < prerollAnchor r.playMarkerPosition r.length r.visualSamplePerPixel
      r.playPosVSample := by
    unfold prerollAnchor
    apply div_pos _ hv
    linarith
  have hp : 0 < markerLength r.visualSamplePerPixel := by
    unfold markerLength
    exact div_pos (by norm_num) hv
  show 0 < prerollFold r.length (markerLength r.visualSamplePerPixel)
    (prerollAnchor r.playMarkerPosition r.length r.visualSamplePerPixel r.playPosVSample)
  rcases le_or_lt (r.length + markerLength r.visualSamplePerPixel)
    (prerollAnchor r.playMarkerPosition r.length r.visualSamplePerPixel r.playPosVSample)
    with hge | hlt
  · have := (prerollFold_mem_Ioc r.length _ _ hp hge).1
    linarith
  · rw [prerollFold_of_lt _ _ _ hlt]
    exact hx

/-- On a frame of a consistent viewport that shows the postroll zone, the
postroll anchor handed to `drawPattern` is left of the right edge. -/
theorem postrollDraw_x1_lt (r : WaveformWidgetRenderer) (hv : 0 < r.visualSamplePerPixel)
    (hL : 0 ≤ r.length) (hc : isInt r.playPosVSample) (ht : isInt r.totalVSample)
    (hview : viewportConsistent r) (hl : r.lastDisplayedPosition > 1) :
    (postrollDraw r).x1 < r.length := by
  obtain ⟨ht0, -, h2⟩ := hview
  have htq : (0 : ℚ) < (r.totalVSample : ℚ) := by exact_mod_cast ht0
  have hgt : (r.totalVSample : ℚ) < r.lastDisplayedPosition * r.totalVSample := by
    have := mul_lt_mul_of_pos_right hl htq
    linarith
  have hw : ((wrapInt (r.totalVSample - r.playPosVSample) : ℤ) : ℚ)
      ≤ (r.totalVSample : ℚ) - (r.playPosVSample : ℚ) := by
    have := wrapInt_sub_le r.playPosVSample r.totalVSample hc ht ht0
    exact_mod_cast this
  have hx : postrollAnchor r.playMarkerPosition r.length r.visualSamplePerPixel
      r.playPosVSample r.totalVSample < r.length := by
    unfold postrollAnchor
    rw [div_lt_iff₀ hv]
    linarith
  have hp : 0 < markerLength r.visualSamplePerPixel := by
    unfold markerLength
    exact div_pos (by norm_num) hv
  show postrollFold (markerLength r.visualSamplePerPixel)
    (postrollAnchor r.playMarkerPosition r.length r.visualSamplePerPixel r.playPosVSample
      r.totalVSample) < r.length
  rcases le_or_lt (postrollAnchor r.playMarkerPosition r.length r.visualSamplePerPixel
    r.playPosVSample r.totalVSample) (-markerLength r.visualSamplePerPixel) with hle | hgt2
  · have := (postrollFold_mem_Ico _ _ hp hle).2
    linarith
  · rw [postrollFold_of_gt _ _ hgt2]
    exact hx

end allshader

/-! ## Binary floating-point arithmetic -/

namespace allshader

/-- Rounding to the nearest integer moves a rational by at most one half. -/
theorem roundHalfEven_error (q : ℚ) : |(roundHalfEven q : ℚ) - q| ≤ 1 / 2 := by
  have h1 := Int.floor_le q
  have h2 := Int.lt_floor_add_one q
  unfold roundHalfEven
  split_ifs with a b c
  · rw [abs_le]; constructor <;> linarith
  · push_cast; rw [abs_le]; constructor <;> linarith
  · rw [abs_le]; constructor <;> linarith
  · push_cast; rw [abs_le]; constructor <;> linarith

/-- Rounding to the nearest integer keeps non-negative rationals non-negative. -/
theorem roundHalfEven_nonneg (q : ℚ) (h : 0 ≤ q) : 0 ≤ roundHalfEven q := by
  have h1 : 0 ≤ ⌊q⌋ := Int.floor_nonneg.mpr h
  unfold roundHalfEven
  split_ifs <;> omega

/-- An integer strictly within one half of a rational is its rounding. -/
theorem roundHalfEven_eq (q : ℚ) (m : ℤ) (h : |q - m| < 1 / 2) : roundHalfEven q = m := by
  rw [abs_lt] at h
  have h1 := Int.floor_le q
  have h2 := Int.lt_floor_add_one q
  by_cases hm : (m : ℚ) ≤ q
  · have hf : ⌊q⌋ = m := by
      rw [Int.floor_eq_iff]; constructor <;> linarith
    unfold roundHalfEven
    rw [hf, if_pos (by linarith)]
  · have hf : ⌊q⌋ = m - 1 := by
      rw [Int.floor_eq_iff]; push_cast; constructor <;> linarith
    unfold roundHalfEven
    rw [hf]
    push_cast
    rw [if_neg (by linarith), if_pos (by linarith)]
    ring

/-- Rounding to a binary format has a relative error of at most `2 ^ (-prec)`, up to the
absolute error of the subnormal range. -/
theorem roundBinary_error (prec : ℕ) (emin : ℤ) (q : ℚ) :
    |roundBinary prec emin q - q| ≤ |q| / 2 ^ prec + (2 : ℚ) ^ (emin - prec) := by
  by_cases hne : q = 0
  · subst hne
    have : roundBinary prec emin 0 = 0 := by simp [roundBinary, roundHalfEven]
    rw [this]
    simp
    positivity
  have hs : (0 : ℚ) < 2 ^ lastPlace prec emin q := by positivity
  have h := roundHalfEven_error (q / 2 ^ lastPlace prec emin q)
  have e1 : roundBinary prec emin q - q =
      ((roundHalfEven (q / 2 ^ lastPlace prec emin q) : ℚ) - q / 2 ^ lastPlace prec emin q)
        * 2 ^ lastPlace prec emin q := by
    unfold roundBinary
    field_simp
  rw [e1, abs_mul, abs_of_pos hs]
  have h3 : |(roundHalfEven (q / 2 ^ lastPlace prec emin q) : ℚ) - q / 2 ^ lastPlace prec emin q|
      * 2 ^ lastPlace prec emin q ≤ 1 / 2 * 2 ^ lastPlace prec emin q :=
    mul_le_mul_of_nonneg_right h hs.le
  refine h3.trans ?_
  have hpos : (0 : ℚ) < 2 ^ (emin - prec) := by positivity
  have hq : (0 : ℚ) ≤ |q| / 2 ^ prec := by positivity
  rcases le_total (Int.log 2 |q|) emin with hl | hl
  · have : lastPlace prec emin q = emin - prec + 1 := by
      unfold lastPlace; rw [max_eq_right hl]; ring
    rw [this, zpow_add₀ (by norm_num : (2 : ℚ) ≠ 0)]
    norm_num
    linarith
  · have hl2 : lastPlace prec emin q = Int.log 2 |q| - prec + 1 := by
      unfold lastPlace; rw [max_eq_left hl]; ring
    by_cases hq0 : q = 0
    · subst hq0
      exact absurd rfl hne
    · have hpos2 : 0 < |q| := abs_pos.mpr hq0
      have hle := Int.zpow_log_le_self (show 1 < 2 by norm_num) hpos2
      rw [hl2]
      have : (2 : ℚ) ^ (Int.log 2 |q| - prec + 1) = 2 ^ Int.log 2 |q| / 2 ^ prec * 2 := by
        rw [zpow_add₀ (by norm_num : (2 : ℚ) ≠ 0), zpow_sub₀ (by norm_num : (2 : ℚ) ≠ 0)]
        simp
      rw [this]
      have h5 : (2 : ℚ) ^ Int.log 2 |q| / 2 ^ prec ≤ |q| / 2 ^ prec := by
        apply div_le_div_of_nonneg_right _ (by positivity)
        exact_mod_cast hle
      linarith

/-- Rounding to a binary format keeps non-negative rationals non-negative. -/
theorem roundBinary_nonneg (prec : ℕ) (emin : ℤ) (q : ℚ) (h : 0 ≤ q) :
    0 ≤ roundBinary prec emin q := by
  unfold roundBinary
  have h1 : (0 : ℚ) ≤ q / 2 ^ lastPlace prec emin q := by positivity
  have h2 := roundHalfEven_nonneg _ h1
  have h3 : (0 : ℚ) ≤ (roundHalfEven (q / 2 ^ lastPlace prec emin q) : ℚ) := by exact_mod_cast h2
  positivity

/-- The last place of a value is fixed by the binade that contains it. -/
theorem lastPlace_eq (prec : ℕ) (emin : ℤ) (q : ℚ) (n : ℤ) (hn : emin ≤ n)
    (h1 : (2 : ℚ) ^ n ≤ |q|) (h2 : |q| < (2 : ℚ) ^ (n + 1)) :
    lastPlace prec emin q = n - ((prec : ℤ) - 1) := by
  have hpos : 0 < |q| := lt_of_lt_of_le (by positivity) h1
  have hlog : Int.log 2 |q| = n := by
    apply le_antisymm
    · have := (Int.lt_zpow_iff_log_lt (show 1 < 2 by norm_num) hpos).mp (by exact_mod_cast h2)
      omega
    · exact (Int.zpow_le_iff_le_log (show 1 < 2 by norm_num) hpos).mp (by exact_mod_cast h1)
  unfold lastPlace
  rw [hlog, max_eq_left hn]

/-- Evaluation of a binary64 rounding that is not a tie: `m * 2 ^ e` is the rounding of any
rational of its binade that is strictly within half a unit in the last place. -/
theorem roundDouble_eq (q : ℚ) (m e : ℤ) (he : -1074 ≤ e)
    (h1 : (2 : ℚ) ^ (e + 52) ≤ |q|) (h2 : |q| < (2 : ℚ) ^ (e + 53))
    (h3 : |q / (2 : ℚ) ^ e - m| < 1 / 2) : roundDouble q = m * (2 : ℚ) ^ e := by
  have hl : lastPlace 53 (-1022) q = e := by
    rw [lastPlace_eq 53 (-1022) q (e + 52) (by omega) h1 (by rw [show e + 52 + 1 = e + 53 by ring]; exact h2)]
    push_cast
    ring
  unfold roundDouble roundBinary
  rw [hl, roundHalfEven_eq _ m h3]

/-- Error of a binary64 rounding. -/
theorem roundDouble_error (q : ℚ) :
    |roundDouble q - q| ≤ |q| / 2 ^ 53 + (2 : ℚ) ^ (-1075 : ℤ) := by
  have h := roundBinary_error 53 (-1022) q
  norm_num at h
  unfold roundDouble
  norm_num
  exact h

/-- Binary64 rounding keeps non-negative rationals non-negative. -/
theorem roundDouble_nonneg (q : ℚ) (h : 0 ≤ q) : 0 ≤ roundDouble q :=
  roundBinary_nonneg 53 (-1022) q h

/-- A `double` operation whose exact result is at most `2 ^ 1020` in magnitude does not overflow. -/
theorem toDouble_of_abs_le (q : ℚ) (h : |q| ≤ (2 : ℚ) ^ (1020 : ℕ)) :
    toDouble q = some (roundDouble q) := by
  have e := roundDouble_error q
  have hη : (2 : ℚ) ^ (-1075 : ℤ) ≤ 1 := by
    apply zpow_le_one_of_nonpos₀ <;> norm_num
  have h1 : |roundDouble q| ≤ |roundDouble q - q| + |q| := by
    have := abs_add (roundDouble q - q) q
    simpa using this
  have h2 : |q| / 2 ^ 53 ≤ |q| := by
    apply div_le_self (abs_nonneg q)
    norm_num
  have h3 : (2 : ℚ) ^ (1020 : ℕ) * 2 + 1 < 2 ^ (1024 : ℕ) := by norm_num
  have h4 : |roundDouble q| < (2 : ℚ) ^ (1024 : ℕ) := by linarith
  unfold toDouble
  rw [if_pos h4]

/-- Rounding analysis of the common part of the two folds: for a distance `S ≥ 0` to the limit
and a pitch `p`, none of the three operations overflows, the ceiling is non-negative, and the
rounded product is within `(S + p) / 2 ^ 51` of the interval `[S, S + p]` and of the exact
product. -/
theorem foldCore (S p : ℚ) (hS : 0 ≤ S) (hSB : S ≤ (2 : ℚ) ^ (510 : ℕ))
    (hp1 : (2 : ℚ) ^ (-500 : ℤ) ≤ p) (hp2 : p ≤ (2 : ℚ) ^ (500 : ℕ)) :
    toDouble S = some (roundDouble S) ∧
    toDouble (roundDouble S / p) = some (roundDouble (roundDouble S / p)) ∧
    toDouble ((⌈roundDouble (roundDouble S / p)⌉ : ℚ) * p)
      = some (roundDouble ((⌈roundDouble (roundDouble S / p)⌉ : ℚ) * p)) ∧
    0 ≤ ⌈roundDouble (roundDouble S / p)⌉ ∧
    S - (S + p) / 2 ^ 51 ≤ roundDouble ((⌈roundDouble (roundDouble S / p)⌉ : ℚ) * p) ∧
    roundDouble ((⌈roundDouble (roundDouble S / p)⌉ : ℚ) * p) ≤ S + p + (S + p) / 2 ^ 51 ∧
    |roundDouble ((⌈roundDouble (roundDouble S / p)⌉ : ℚ) * p)
      - (⌈roundDouble (roundDouble S / p)⌉ : ℚ) * p| ≤ (S + p) / 2 ^ 51 := by
  have hp0 : 0 < p := lt_of_lt_of_le (by positivity) hp1
  have hη1 : (2 : ℚ) ^ (-1075 : ℤ) ≤ p / 2 ^ 63 := by
    have : (2 : ℚ) ^ (-1075 : ℤ) ≤ (2 : ℚ) ^ (-500 : ℤ) / 2 ^ 63 := by norm_num
    have h2 : (2 : ℚ) ^ (-500 : ℤ) / 2 ^ 63 ≤ p / 2 ^ 63 :=
      div_le_div_of_nonneg_right hp1 (by positivity)
    linarith
  have hη2 : (2 : ℚ) ^ (-1075 : ℤ) ≤ 1 / 2 ^ 63 := by norm_num
  have hη0 : (0 : ℚ) < (2 : ℚ) ^ (-1075 : ℤ) := by positivity
  have hd := roundDouble_error S
  have hd0 := roundDouble_nonneg S hS
  rw [abs_of_nonneg hS] at hd
  have hq := roundDouble_error (roundDouble S / p)
  have hdp0 : 0 ≤ roundDouble S / p := div_nonneg hd0 hp0.le
  have hq0 := roundDouble_nonneg _ hdp0
  rw [abs_of_nonneg hdp0] at hq
  have hk1 := Int.le_ceil (roundDouble (roundDouble S / p))
  have hk2 := Int.ceil_lt_add_one (roundDouble (roundDouble S / p))
  have hk0 : 0 ≤ ⌈roundDouble (roundDouble S / p)⌉ := Int.ceil_nonneg hq0
  have hkp0 : 0 ≤ (⌈roundDouble (roundDouble S / p)⌉ : ℚ) * p :=
    mul_nonneg (by exact_mod_cast hk0) hp0.le
  have hw := roundDouble_error ((⌈roundDouble (roundDouble S / p)⌉ : ℚ) * p)
  rw [abs_of_nonneg hkp0] at hw
  generalize (2 : ℚ) ^ (-1075 : ℤ) = η at *
  set d := roundDouble S with hd_def
  set q := roundDouble (d / p) with hq_def
  set k := ⌈q⌉ with hk_def
  set w := roundDouble ((k : ℚ) * p) with hw_def
  have hηp : η * p ≤ p / 2 ^ 63 := by
    have := mul_le_mul_of_nonneg_right hη2 hp0.le
    linarith
  have hqp : |q * p - d| ≤ d / 2 ^ 53 + η * p := by
    have e : q * p - d = (q - d / p) * p := by field_simp
    rw [e, abs_mul, abs_of_pos hp0]
    have := mul_le_mul_of_nonneg_right hq hp0.le
    have e2 : (d / p / 2 ^ 53 + η) * p = d / 2 ^ 53 + η * p := by
      field_simp
      ring
    linarith
  have hkp1 : q * p ≤ (k : ℚ) * p := mul_le_mul_of_nonneg_right hk1 hp0.le
  have hkp2 : (k : ℚ) * p < q * p + p := by
    have := mul_lt_mul_of_pos_right hk2 hp0
    linarith
  rw [abs_le] at hd hqp hw
  obtain ⟨hd1, hd2⟩ := hd
  obtain ⟨hqp1, hqp2⟩ := hqp
  obtain ⟨hw1, hw2⟩ := hw
  have hB : (2 : ℚ) ^ (510 : ℕ) * 4 ≤ 2 ^ (1012 : ℕ) * (2 : ℚ) ^ (-500 : ℤ) := by norm_num
  have hB1 : (2 : ℚ) ^ (1012 : ℕ) ≤ 2 ^ (1020 : ℕ) := by norm_num
  have hB2 : (2 : ℚ) ^ (500 : ℕ) ≤ 2 ^ (510 : ℕ) := by norm_num
  have hB3 : (2 : ℚ) ^ (510 : ℕ) * 4 ≤ 2 ^ (1020 : ℕ) := by norm_num
  have hB0 : (0 : ℚ) < 2 ^ (510 : ℕ) := by positivity
  have hdB : d ≤ (2 : ℚ) ^ (510 : ℕ) * 2 := by linarith
  have hdpB : d / p ≤ (2 : ℚ) ^ (1012 : ℕ) := by
    rw [div_le_iff₀ hp0]
    have := mul_le_mul_of_nonneg_left hp1 (by positivity : (0 : ℚ) ≤ 2 ^ (1012 : ℕ))
    linarith
  refine ⟨?_, ?_, ?_, hk0, ?_, ?_, ?_⟩
  · exact toDouble_of_abs_le S (by rw [abs_of_nonneg hS]; linarith)
  · exact toDouble_of_abs_le _ (by rw [abs_of_nonneg hdp0]; linarith)
  · exact toDouble_of_abs_le _ (by rw [abs_of_nonneg hkp0]; linarith)
  · linarith
  · linarith
  · rw [abs_le]; constructor <;> linarith

/-- Magnitude of a binary64 rounding. -/
theorem roundDouble_abs_le (q : ℚ) : |roundDouble q| ≤ |q| + |q| / 2 ^ 53 + (2 : ℚ) ^ (-1075 : ℤ) := by
  have e := roundDouble_error q
  have h1 : |roundDouble q| ≤ |roundDouble q - q| + |q| := by
    have := abs_add (roundDouble q - q) q
    simpa using this
  linarith

/-- The preroll fold in binary64 arithmetic, when the fold branch is taken. -/
theorem prerollFoldDouble_bounds (L p x : ℚ)
    (hp1 : (2 : ℚ) ^ (-500 : ℤ) ≤ p) (hp2 : p ≤ (2 : ℚ) ^ (500 : ℕ))
    (hL : |L| ≤ (2 : ℚ) ^ (500 : ℕ)) (hx : |x| ≤ (2 : ℚ) ^ (500 : ℕ))
    (hge : x ≥ roundDouble (L + p)) :
    ∃ (a : ℚ) (k : ℕ), prerollFoldDouble L p x = some a ∧
      roundDouble (L + p) - p - foldTolerance x (roundDouble (L + p)) p ≤ a ∧
      a ≤ roundDouble (L + p) + foldTolerance x (roundDouble (L + p)) p ∧
      |x - a - (k : ℚ) * p| ≤ foldTolerance x (roundDouble (L + p)) p := by
  have hp0 : 0 < p := lt_of_lt_of_le (by positivity) hp1
  have hη1 : (2 : ℚ) ^ (-1075 : ℤ) ≤ p / 2 ^ 63 := by
    have : (2 : ℚ) ^ (-1075 : ℤ) ≤ (2 : ℚ) ^ (-500 : ℤ) / 2 ^ 63 := by norm_num
    have h2 : (2 : ℚ) ^ (-500 : ℤ) / 2 ^ 63 ≤ p / 2 ^ 63 :=
      div_le_div_of_nonneg_right hp1 (by positivity)
    linarith
  have hη2 : (2 : ℚ) ^ (-1075 : ℤ) ≤ 1 := by norm_num
  have hB0 : (0 : ℚ) < 2 ^ (500 : ℕ) := by positivity
  have hB1 : (2 : ℚ) ^ (500 : ℕ) * 16 ≤ 2 ^ (510 : ℕ) := by norm_num
  have hB2 : (2 : ℚ) ^ (510 : ℕ) * 16 ≤ 2 ^ (1020 : ℕ) := by norm_num
  have hLp : |L + p| ≤ (2 : ℚ) ^ (500 : ℕ) * 2 := by
    have := abs_add L p
    rw [abs_of_pos hp0] at this
    linarith
  have hlim := toDouble_of_abs_le (L + p) (by linarith)
  have hlimB := roundDouble_abs_le (L + p)
  have hLp53 : |L + p| / 2 ^ 53 ≤ |L + p| := div_le_self (abs_nonneg _) (by norm_num)
  set limit := roundDouble (L + p) with hlimit
  have hS0 : 0 ≤ x - limit := by linarith
  have hxa := le_abs_self x
  have hxb := neg_abs_le x
  have hla := le_abs_self limit
  have hlb := neg_abs_le limit
  have hSB : x - limit ≤ (2 : ℚ) ^ (510 : ℕ) := by linarith
  obtain ⟨c1, c2, c3, c4, c5, c6, c7⟩ := foldCore (x - limit) p hS0 hSB hp1 hp2
  set w := roundDouble ((⌈roundDouble (roundDouble (x - limit) / p)⌉ : ℚ) * p) with hw
  set k := ⌈roundDouble (roundDouble (x - limit) / p)⌉ with hk
  have hxw : |x - w| ≤ |limit| + p + (x - limit + p) / 2 ^ 51 := by
    rw [abs_le]; constructor <;> linarith
  have hfin := toDouble_of_abs_le (x - w) (by linarith)
  have herr := roundDouble_error (x - w)
  rw [abs_le] at herr c7
  refine ⟨roundDouble (x - w), k.toNat, ?_, ?_, ?_, ?_⟩
  · unfold prerollFoldDouble
    rw [hlim, Option.some_bind, if_pos hge, c1, Option.some_bind, c2, Option.some_bind, c3,
      Option.some_bind, hfin]
  · unfold foldTolerance; linarith
  · unfold foldTolerance; linarith
  · have hkc : ((k.toNat : ℤ) : ℚ) = (k : ℚ) := by rw [Int.toNat_of_nonneg c4]
    have hkc2 : ((k.toNat : ℕ) : ℚ) = (k : ℚ) := by rw [← hkc]; push_cast; rfl
    rw [hkc2]
    unfold foldTolerance
    rw [abs_le]; constructor <;> linarith

/-- Evaluation of a `double` operation that is not a tie and does not overflow. -/
theorem toDouble_eq_some (q r : ℚ) (m e : ℤ) (hr : r = m * (2 : ℚ) ^ e) (he : -1074 ≤ e)
    (h1 : (2 : ℚ) ^ (e + 52) ≤ |q|) (h2 : |q| < (2 : ℚ) ^ (e + 53))
    (h3 : |q / (2 : ℚ) ^ e - m| < 1 / 2) (hfin : |r| < (2 : ℚ) ^ (1024 : ℕ)) :
    toDouble q = some r := by
  have h := roundDouble_eq q m e he h1 h2 h3
  unfold toDouble
  rw [h, ← hr, if_pos hfin]

/-- A `double` operation with exact result zero. -/
theorem toDouble_zero : toDouble 0 = some 0 := by
  have h : roundDouble 0 = 0 := by simp [roundDouble, roundBinary, roundHalfEven]
  unfold toDouble
  rw [h]
  simp

/-- Step-by-step evaluation of the preroll fold in binary64 arithmetic. -/
theorem prerollFoldDouble_eq_some (L p x limit d q w a : ℚ) (k : ℤ)
    (h1 : toDouble (L + p) = some limit) (hge : x ≥ limit)
    (h2 : toDouble (x - limit) = some d) (h3 : toDouble (d / p) = some q) (hk : ⌈q⌉ = k)
    (h4 : toDouble ((k : ℚ) * p) = some w) (h5 : toDouble (x - w) = some a) :
    prerollFoldDouble L p x = some a := by
  unfold prerollFoldDouble
  rw [h1, Option.some_bind, if_pos hge, h2, Option.some_bind, h3, Option.some_bind, hk, h4,
    Option.some_bind, h5]

/-- The postroll fold in binary64 arithmetic, when the fold branch is taken. -/
theorem postrollFoldDouble_bounds (p x : ℚ)
    (hp1 : (2 : ℚ) ^ (-500 : ℤ) ≤ p) (hp2 : p ≤ (2 : ℚ) ^ (500 : ℕ))
    (hx : |x| ≤ (2 : ℚ) ^ (500 : ℕ)) (hle : x ≤ -p) :
    ∃ (a : ℚ) (k : ℕ), postrollFoldDouble p x = some a ∧
      -p - foldTolerance x (-p) p ≤ a ∧
      a ≤ -p + p + foldTolerance x (-p) p ∧
      |a - x - (k : ℚ) * p| ≤ foldTolerance x (-p) p := by
  have hp0 : 0 < p := lt_of_lt_of_le (by positivity) hp1
  have hη1 : (2 : ℚ) ^ (-1075 : ℤ) ≤ p / 2 ^ 63 := by
    have : (2 : ℚ) ^ (-1075 : ℤ) ≤ (2 : ℚ) ^ (-500 : ℤ) / 2 ^ 63 := by norm_num
    have h2 : (2 : ℚ) ^ (-500 : ℤ) / 2 ^ 63 ≤ p / 2 ^ 63 :=
      div_le_div_of_nonneg_right hp1 (by positivity)
    linarith
  have hB0 : (0 : ℚ) < 2 ^ (500 : ℕ) := by positivity
  have hB1 : (2 : ℚ) ^ (500 : ℕ) * 16 ≤ 2 ^ (510 : ℕ) := by norm_num
  have hB2 : (2 : ℚ) ^ (510 : ℕ) * 16 ≤ 2 ^ (1020 : ℕ) := by norm_num
  have hS0 : 0 ≤ -p - x := by linarith
  have hxa := le_abs_self x
  have hxb := neg_abs_le x
  have hpa : |(-p)| = p := by rw [abs_neg, abs_of_pos hp0]
  have hSB : -p - x ≤ (2 : ℚ) ^ (510 : ℕ) := by linarith
  obtain ⟨c1, c2, c3, c4, c5, c6, c7⟩ := foldCore (-p - x) p hS0 hSB hp1 hp2
  set w := roundDouble ((⌈roundDouble (roundDouble (-p - x) / p)⌉ : ℚ) * p) with hw
  set k := ⌈roundDouble (roundDouble (-p - x) / p)⌉ with hk
  have hxw : |x + w| ≤ p + p + (-p - x + p) / 2 ^ 51 := by
    rw [abs_le]; constructor <;> linarith
  have hfin := toDouble_of_abs_le (x + w) (by linarith)
  have herr := roundDouble_error (x + w)
  rw [abs_le] at herr c7
  refine ⟨roundDouble (x + w), k.toNat, ?_, ?_, ?_, ?_⟩
  · unfold postrollFoldDouble
    simp only
    rw [if_pos hle, c1, Option.some_bind, c2, Option.some_bind, c3, Option.some_bind, hfin]
  · unfold foldTolerance; rw [hpa]; linarith
  · unfold foldTolerance; rw [hpa]; linarith
  · have hkc : ((k.toNat : ℤ) : ℚ) = (k : ℚ) := by rw [Int.toNat_of_nonneg c4]
    have hkc2 : ((k.toNat : ℕ) : ℚ) = (k : ℚ) := by rw [← hkc]; push_cast; rfl
    rw [hkc2]
    unfold foldTolerance
    rw [hpa, abs_le]; constructor <;> linarith

/-- Evaluation of a narrowing to `float` that is not a tie and does not
overflow. -/
theorem toFloat_eq_some (q r : ℚ) (m e : ℤ) (hr : r = m * (2 : ℚ) ^ e) (he : -149 ≤ e)
    (h1 : (2 : ℚ) ^ (e + 23) ≤ |q|) (h2 : |q| < (2 : ℚ) ^ (e + 24))
    (h3 : |q / (2 : ℚ) ^ e - m| < 1 / 2) (hfin : |r| < (2 : ℚ) ^ (128 : ℕ)) :
    toFloat q = some r := by
  have hl : lastPlace 24 (-126) q = e := by
    rw [lastPlace_eq 24 (-126) q (e + 23) (by omega) h1
      (by rw [show e + 23 + 1 = e + 24 by ring]; exact h2)]
    push_cast
    ring
  have h : roundFloat q = m * (2 : ℚ) ^ e := by
    unfold roundFloat roundBinary
    rw [hl, roundHalfEven_eq _ m h3]
  unfold toFloat
  rw [h, ← hr, if_pos hfin]

/-- Step-by-step evaluation of the postroll fold in binary64 arithmetic. -/
theorem postrollFoldDouble_eq_some (p x d q w a : ℚ) (k : ℤ)
    (hle : x ≤ -p)
    (h2 : toDouble (-p - x) = some d) (h3 : toDouble (d / p) = some q) (hk : ⌈q⌉ = k)
    (h4 : toDouble ((k : ℚ) * p) = some w) (h5 : toDouble (x + w) = some a) :
    postrollFoldDouble p x = some a := by
  unfold postrollFoldDouble
  simp only
  rw [if_pos hle, h2, Option.some_bind, h3, Option.some_bind, hk, h4, Option.some_bind, h5]

/-- Evaluation of a `double` operation that overflows. -/
theorem toDouble_eq_none (q : ℚ) (m e : ℤ) (he : -1074 ≤ e)
    (h1 : (2 : ℚ) ^ (e + 52) ≤ |q|) (h2 : |q| < (2 : ℚ) ^ (e + 53))
    (h3 : |q / (2 : ℚ) ^ e - m| < 1 / 2)
    (hinf : ¬ (|(m : ℚ) * (2 : ℚ) ^ e| < (2 : ℚ) ^ (1024 : ℕ))) :
    toDouble q = none := by
  have h := roundDouble_eq q m e he h1 h2 h3
  unfold toDouble
  rw [h, if_neg hinf]

/-- The preroll fold in binary64 arithmetic stops at an overflowing quotient. -/
theorem prerollFoldDouble_eq_none (L p x limit d : ℚ)
    (h1 : toDouble (L + p) = some limit) (hge : x ≥ limit)
    (h2 : toDouble (x - limit) = some d) (h3 : toDouble (d / p) = none) :
    prerollFoldDouble L p x = none := by
  unfold prerollFoldDouble
  rw [h1, Option.some_bind, if_pos hge, h2, Option.some_bind, h3, Option.none_bind]

/-- The postroll fold in binary64 arithmetic stops at an overflowing quotient. -/
theorem postrollFoldDouble_eq_none (p x d : ℚ) (hle : x ≤ -p)
    (h2 : toDouble (-p - x) = some d) (h3 : toDouble (d / p) = none) :
    postrollFoldDouble p x = none := by
  unfold postrollFoldDouble
  simp only
  rw [if_pos hle, h2, Option.some_bind, h3, Option.none_bind]

/-- The two embeddings of the preroll fold agree whenever no operation of the
fold rounds: if every intermediate value is a `double`, the binary64 fold
returns the value of the exact fold. -/
theorem prerollFoldDouble_of_exact (L p x : ℚ)
    (h1 : toDouble (L + p) = some (L + p))
    (h2 : toDouble (x - (L + p)) = some (x - (L + p)))
    (h3 : toDouble ((x - (L + p)) / p) = some ((x - (L + p)) / p))
    (h4 : toDouble ((⌈(x - (L + p)) / p⌉ : ℚ) * p) = some ((⌈(x - (L + p)) / p⌉ : ℚ) * p))
    (h5 : toDouble (x - (⌈(x - (L + p)) / p⌉ : ℚ) * p)
      = some (x - (⌈(x - (L + p)) / p⌉ : ℚ) * p)) :
    prerollFoldDouble L p x = some (prerollFold L p x) := by
  unfold prerollFoldDouble
  rw [h1, Option.some_bind]
  by_cases hge : x ≥ L + p
  · rw [if_pos hge, h2, Option.some_bind, h3, Option.some_bind, h4, Option.some_bind, h5,
      prerollFold_of_ge L p x hge]
  · rw [if_neg hge, prerollFold_of_lt L p x (not_le.mp hge)]

/-- The two embeddings of the postroll fold agree whenever no operation of the
fold rounds. -/
theorem postrollFoldDouble_of_exact (p x : ℚ)
    (h2 : toDouble (-p - x) = some (-p - x))
    (h3 : toDouble ((-p - x) / p) = some ((-p - x) / p))
    (h4 : toDouble ((⌈(-p - x) / p⌉ : ℚ) * p) = some ((⌈(-p - x) / p⌉ : ℚ) * p))
    (h5 : toDouble (x + (⌈(-p - x) / p⌉ : ℚ) * p) = some (x + (⌈(-p - x) / p⌉ : ℚ) * p)) :
    postrollFoldDouble p x = some (postrollFold p x) := by
  unfold postrollFoldDouble
  simp only
  by_cases hle : x ≤ -p
  · rw [if_pos hle, h2, Option.some_bind, h3, Option.some_bind, h4, Option.some_bind, h5,
      postrollFold_of_le p x hle]
  · rw [if_neg hle, postrollFold_of_gt p x (not_le.mp hle)]

end allshader

/-! ## The folds of the tile pattern planner -/

namespace allshader

/-- C1 (as amended): in binary64 arithmetic, for every pitch `p` between
`2 ^ (-500)` and `2 ^ 500`, viewport length `L` and raw anchor `x` of magnitude
at most `2 ^ 500` with `x ≥ limit`, where `limit` is the `double` sum `L + p`,
the fold returns a finite anchor `a` with `limit - p - ε ≤ a ≤ limit + ε`, and
`x - a` is within `ε` of a non-negative integer multiple of `p`, where
`ε = (|x| + |limit| + p) / 2 ^ 50` bounds the accumulated rounding. -/
theorem prerollFoldDouble_range (L p x : ℚ)
    (hp1 : (2 : ℚ) ^ (-500 : ℤ) ≤ p) (hp2 : p ≤ (2 : ℚ) ^ (500 : ℕ))
    (hL : |L| ≤ (2 : ℚ) ^ (500 : ℕ)) (hx : |x| ≤ (2 : ℚ) ^ (500 : ℕ))
    (hge : x ≥ roundDouble (L + p)) :
    toDouble (L + p) = some (roundDouble (L + p)) ∧
    ∃ (a : ℚ) (k : ℕ), prerollFoldDouble L p x = some a ∧
      roundDouble (L + p) - p - foldTolerance x (roundDouble (L + p)) p ≤ a ∧
      a ≤ roundDouble (L + p) + foldTolerance x (roundDouble (L + p)) p ∧
      |x - a - (k : ℚ) * p| ≤ foldTolerance x (roundDouble (L + p)) p := by
  refine ⟨?_, prerollFoldDouble_bounds L p x hp1 hp2 hL hx hge⟩
  have hp0 : 0 < p := lt_of_lt_of_le (by positivity) hp1
  have hB : (2 : ℚ) ^ (500 : ℕ) * 2 ≤ 2 ^ (1020 : ℕ) := by norm_num
  have hLp : |L + p| ≤ (2 : ℚ) ^ (500 : ℕ) * 2 := by
    have := abs_add L p
    rw [abs_of_pos hp0] at this
    linarith
  exact toDouble_of_abs_le (L + p) (by linarith)

/-- Instance of `prerollFoldDouble_range`: pitch 10, viewport 100, raw anchor
125. -/
theorem prerollFoldDouble_range_witness :
    (2 : ℚ) ^ (-500 : ℤ) ≤ 10 ∧ (10 : ℚ) ≤ (2 : ℚ) ^ (500 : ℕ) ∧
      |(100 : ℚ)| ≤ (2 : ℚ) ^ (500 : ℕ) ∧ |(125 : ℚ)| ≤ (2 : ℚ) ^ (500 : ℕ) ∧
      (125 : ℚ) ≥ roundDouble (100 + 10) ∧
      ∃ (a : ℚ) (k : ℕ), prerollFoldDouble 100 10 125 = some a ∧
        roundDouble (100 + 10) - 10 - foldTolerance 125 (roundDouble (100 + 10)) 10 ≤ a ∧
        a ≤ roundDouble (100 + 10) + foldTolerance 125 (roundDouble (100 + 10)) 10 ∧
        |125 - a - (k : ℚ) * 10| ≤ foldTolerance 125 (roundDouble (100 + 10)) 10 := by
  have h110 : roundDouble (100 + 10) = 110 := by
    rw [roundDouble_eq (100 + 10) 7740561859543040 (-46) (by norm_num)
      (by norm_num [abs_lt, le_abs]) (by norm_num [abs_lt, le_abs])
      (by norm_num [abs_lt, le_abs])]
    norm_num
  have h1 : (2 : ℚ) ^ (-500 : ℤ) ≤ 10 := by norm_num
  have h2 : (10 : ℚ) ≤ (2 : ℚ) ^ (500 : ℕ) := by norm_num
  have h3 : |(100 : ℚ)| ≤ (2 : ℚ) ^ (500 : ℕ) := by norm_num [abs_le]
  have h4 : |(125 : ℚ)| ≤ (2 : ℚ) ^ (500 : ℕ) := by norm_num [abs_le]
  have h5 : (125 : ℚ) ≥ roundDouble (100 + 10) := by rw [h110]; norm_num
  exact ⟨h1, h2, h3, h4, h5, (prerollFoldDouble_range 100 10 125 h1 h2 h3 h4 h5).2⟩

/-- C1 (as stated) fails in four ways.  With pitch 10 and viewport 100 the raw
anchor 110, equal to the limit, is kept at 110, which is not below the limit.
At 3 visual samples per pixel (pitch `40.0 / 3`) and 700 visual samples before
the track start the folded anchor is above `L + p`, and its distance to the raw
anchor is not an integer multiple of the pitch.  With pitch 10 the raw anchor
`2 ^ 58` folds to 96, below `limit - p = 100`.  With pitch `2 ^ (-600)` and raw
anchor `2 ^ 600` the quotient overflows and the fold has no finite result. -/
theorem prerollFoldDouble_off_range :
    (prerollFoldDouble 100 10 110 = some 110 ∧ (110 : ℚ) ≥ 100 + 10 ∧
      ¬ ((110 : ℚ) < 100 + 10)) ∧
    (toDouble (40 / 3) = some (7505999378950827 / 2 ^ 49) ∧
      toDouble (700 / 3) = some (8209686820727467 / 2 ^ 45) ∧
      prerollFoldDouble 100 (7505999378950827 / 2 ^ 49) (8209686820727467 / 2 ^ 45)
        = some (3987562170067627 / 2 ^ 45) ∧
      ((8209686820727467 / 2 ^ 45) : ℚ) ≥ 100 + (7505999378950827 / 2 ^ 49) ∧
      ¬ (((3987562170067627 / 2 ^ 45) : ℚ) < 100 + (7505999378950827 / 2 ^ 49)) ∧
      ¬ ∃ k : ℤ, ((8209686820727467 / 2 ^ 45) : ℚ) - (3987562170067627 / 2 ^ 45)
        = (k : ℚ) * (7505999378950827 / 2 ^ 49)) ∧
    (prerollFoldDouble 100 10 (2 ^ 58) = some 96 ∧ ((2 : ℚ) ^ 58) ≥ 100 + 10 ∧
      ¬ ((100 + 10 : ℚ) - 10 ≤ 96)) ∧
    ((0 : ℚ) < 1 / 2 ^ 600 ∧ ((2 : ℚ) ^ 600) ≥ 100 + 1 / 2 ^ 600 ∧
      prerollFoldDouble 100 (1 / 2 ^ 600) (2 ^ 600) = none) := by
  have hA : prerollFoldDouble 100 10 110 = some 110 :=
    prerollFoldDouble_eq_some 100 10 110 110 0 0 0 110 0
      (by apply toDouble_eq_some _ _ 7740561859543040 (-46) <;> norm_num [abs_lt, le_abs])
      (by norm_num)
      (by norm_num [toDouble_zero])
      (by norm_num [toDouble_zero])
      (by rw [Int.ceil_eq_iff]; norm_num)
      (by norm_num [toDouble_zero])
      (by apply toDouble_eq_some _ _ 7740561859543040 (-46) <;> norm_num [abs_lt, le_abs])
  have hB : prerollFoldDouble 100 (7505999378950827 / 2 ^ 49) (8209686820727467 / 2 ^ 45)
      = some (3987562170067627 / 2 ^ 45) :=
    prerollFoldDouble_eq_some 100 (7505999378950827 / 2 ^ 49)
        (8209686820727467 / 2 ^ 45)
        (7975124340135253 / 2 ^ 46)
        (8444249301319681 / 2 ^ 46) 9 120 (3987562170067627 / 2 ^ 45) 9
      (by apply toDouble_eq_some _ _ 7975124340135253 (-46) <;> norm_num [abs_lt, le_abs])
      (by norm_num)
      (by apply toDouble_eq_some _ _ 8444249301319681 (-46) <;> norm_num [abs_lt, le_abs])
      (by apply toDouble_eq_some _ _ 5066549580791808 (-49) <;> norm_num [abs_lt, le_abs])
      (by rw [Int.ceil_eq_iff]; norm_num)
      (by apply toDouble_eq_some _ _ 8444249301319680 (-46) <;> norm_num [abs_lt, le_abs])
      (by apply toDouble_eq_some _ _ 7975124340135254 (-46) <;> norm_num [abs_lt, le_abs])
  have hC : prerollFoldDouble 100 10 (2 ^ 58) = some 96 := by
    rw [show (2 : ℚ) ^ 58 = 288230376151711744 by norm_num]
    exact prerollFoldDouble_eq_some 100 10 288230376151711744 110 288230376151711648 28823037615171164 288230376151711648 96 28823037615171164
        (by apply toDouble_eq_some _ _ 7740561859543040 (-46) <;> norm_num [abs_lt, le_abs])
        (by norm_num)
        (by apply toDouble_eq_some _ _ 9007199254740989 5 <;> norm_num [abs_lt, le_abs])
        (by apply toDouble_eq_some _ _ 7205759403792791 2 <;> norm_num [abs_lt, le_abs])
        (by rw [Int.ceil_eq_iff]; norm_num)
        (by apply toDouble_eq_some _ _ 9007199254740989 5 <;> norm_num [abs_lt, le_abs])
        (by apply toDouble_eq_some _ _ 6755399441055744 (-46) <;> norm_num [abs_lt, le_abs])
  have hD : prerollFoldDouble 100 (1 / 2 ^ 600) (2 ^ 600) = none :=
    prerollFoldDouble_eq_none 100 (1 / 2 ^ 600) (2 ^ 600) 100 (2 ^ 600)
      (by apply toDouble_eq_some _ _ 7036874417766400 (-46) <;> norm_num [abs_lt, le_abs])
      (by norm_num)
      (by apply toDouble_eq_some _ _ 9007199254740992 547 <;> norm_num [abs_lt, le_abs])
      (by apply toDouble_eq_none _ 4503599627370496 1148 <;> norm_num [abs_lt, le_abs])
  refine ⟨⟨hA, by norm_num, by norm_num⟩, ⟨?_, ?_, hB, by norm_num, by norm_num, ?_⟩,
    ⟨hC, by norm_num, by norm_num⟩, ⟨by norm_num, by norm_num, hD⟩⟩
  · exact (by apply toDouble_eq_some _ _ 7505999378950827 (-49) <;> norm_num [abs_lt, le_abs])
  · exact (by apply toDouble_eq_some _ _ 8209686820727467 (-45) <;> norm_num [abs_lt, le_abs])
  · rintro ⟨k, hk⟩
    have h1 : (8 : ℚ) < (k : ℚ) := by
      have : (8 : ℚ) * (7505999378950827 / 2 ^ 49) < (k : ℚ) * (7505999378950827 / 2 ^ 49) := by rw [← hk]; norm_num
      exact lt_of_mul_lt_mul_right this (by norm_num)
    have h2 : (k : ℚ) < 9 := by
      have : (k : ℚ) * (7505999378950827 / 2 ^ 49) < (9 : ℚ) * (7505999378950827 / 2 ^ 49) := by rw [← hk]; norm_num
      exact lt_of_mul_lt_mul_right this (by norm_num)
    have h3 : (8 : ℤ) < k := by exact_mod_cast h1
    have h4 : k < (9 : ℤ) := by exact_mod_cast h2
    omega

/-- C2 (as amended): in binary64 arithmetic, for every pitch `p` between
`2 ^ (-500)` and `2 ^ 500` and raw anchor `x` of magnitude at most `2 ^ 500`
with `x ≤ limit = -p`, the fold returns a finite anchor `a` with
`limit - ε ≤ a ≤ limit + p + ε`, that is `-p - ε ≤ a ≤ ε`, and `a - x` is
within `ε` of a non-negative integer multiple of `p`, where
`ε = (|x| + |limit| + p) / 2 ^ 50` bounds the accumulated rounding. -/
theorem postrollFoldDouble_range (p x : ℚ)
    (hp1 : (2 : ℚ) ^ (-500 : ℤ) ≤ p) (hp2 : p ≤ (2 : ℚ) ^ (500 : ℕ))
    (hx : |x| ≤ (2 : ℚ) ^ (500 : ℕ)) (hle : x ≤ -p) :
    ∃ (a : ℚ) (k : ℕ), postrollFoldDouble p x = some a ∧
      -p - foldTolerance x (-p) p ≤ a ∧
      a ≤ -p + p + foldTolerance x (-p) p ∧
      a ≤ foldTolerance x (-p) p ∧
      |a - x - (k : ℚ) * p| ≤ foldTolerance x (-p) p := by
  obtain ⟨a, k, h1, h2, h3, h4⟩ := postrollFoldDouble_bounds p x hp1 hp2 hx hle
  exact ⟨a, k, h1, h2, h3, by linarith, h4⟩

/-- Instance of `postrollFoldDouble_range`: pitch 10, raw anchor -25. -/
theorem postrollFoldDouble_range_witness :
    (2 : ℚ) ^ (-500 : ℤ) ≤ 10 ∧ (10 : ℚ) ≤ (2 : ℚ) ^ (500 : ℕ) ∧
      |(-25 : ℚ)| ≤ (2 : ℚ) ^ (500 : ℕ) ∧ (-25 : ℚ) ≤ -10 ∧
      ∃ (a : ℚ) (k : ℕ), postrollFoldDouble 10 (-25) = some a ∧
        -10 - foldTolerance (-25) (-10) 10 ≤ a ∧
        a ≤ -10 + 10 + foldTolerance (-25) (-10) 10 ∧
        a ≤ foldTolerance (-25) (-10) 10 ∧
        |a - (-25) - (k : ℚ) * 10| ≤ foldTolerance (-25) (-10) 10 := by
  have h1 : (2 : ℚ) ^ (-500 : ℤ) ≤ 10 := by norm_num
  have h2 : (10 : ℚ) ≤ (2 : ℚ) ^ (500 : ℕ) := by norm_num
  have h3 : |(-25 : ℚ)| ≤ (2 : ℚ) ^ (500 : ℕ) := by norm_num [abs_le]
  have h4 : (-25 : ℚ) ≤ -10 := by norm_num
  exact ⟨h1, h2, h3, h4, postrollFoldDouble_range 10 (-25) h1 h2 h3 h4⟩

/-- C2 (as stated) fails in four ways, three of them at 3 visual samples per
pixel (pitch `40.0 / 3`).  With the track end 920 visual samples left of the
play marker the folded anchor is exactly 0, which is not below 0, and its distance to the
raw anchor is not an integer multiple of the pitch.  With the track end 160
visual samples left of the play marker the folded anchor is below `-p`.  The
raw anchor `-(2 ^ 57 + 683 * 2 ^ 47)` folds to 32, to the right of 0.  With
pitch `2 ^ (-600)` and raw anchor `-2 ^ 600` the quotient overflows and the
fold has no finite result. -/
theorem postrollFoldDouble_off_range :
    toDouble (40 / 3) = some (7505999378950827 / 2 ^ 49) ∧
    (toDouble (-920 / 3) = some (-5394937053620907 / 2 ^ 44) ∧
      ((-5394937053620907 / 2 ^ 44) : ℚ) ≤ -(7505999378950827 / 2 ^ 49) ∧
      postrollFoldDouble (7505999378950827 / 2 ^ 49) (-5394937053620907 / 2 ^ 44) = some 0 ∧
      ¬ ((0 : ℚ) < 0) ∧
      ¬ ∃ k : ℤ, (0 : ℚ) - (-5394937053620907 / 2 ^ 44) = (k : ℚ) * (7505999378950827 / 2 ^ 49)) ∧
    (toDouble (-160 / 3) = some (-7505999378950827 / 2 ^ 47) ∧
      ((-7505999378950827 / 2 ^ 47) : ℚ) ≤ -(7505999378950827 / 2 ^ 49) ∧
      postrollFoldDouble (7505999378950827 / 2 ^ 49) (-7505999378950827 / 2 ^ 47)
        = some (-1876499844737707 / 2 ^ 47) ∧
      ¬ (-(7505999378950827 / 2 ^ 49) ≤ ((-1876499844737707 / 2 ^ 47) : ℚ))) ∧
    (((-(2 ^ 57 + 683 * 2 ^ 47) : ℚ)) ≤ -(7505999378950827 / 2 ^ 49) ∧
      postrollFoldDouble (7505999378950827 / 2 ^ 49) (-(2 ^ 57 + 683 * 2 ^ 47)) = some 32 ∧
      ¬ ((32 : ℚ) < 0)) ∧
    ((0 : ℚ) < 1 / 2 ^ 600 ∧ (-(2 : ℚ) ^ 600) ≤ -(1 / 2 ^ 600) ∧
      postrollFoldDouble (1 / 2 ^ 600) (-2 ^ 600) = none) := by
  have hV : postrollFoldDouble (7505999378950827 / 2 ^ 49) (-5394937053620907 / 2 ^ 44) = some 0 :=
    postrollFoldDouble_eq_some (7505999378950827 / 2 ^ 49)
        (-5394937053620907 / 2 ^ 44)
        (2580187286514347 / 2 ^ 43)
        (6192449487634433 / 2 ^ 48)
        (5394937053620907 / 2 ^ 44) 0 23
      (by norm_num)
      (by apply toDouble_eq_some _ _ 5160374573028694 (-44) <;> norm_num [abs_lt, le_abs])
      (by apply toDouble_eq_some _ _ 6192449487634433 (-48) <;> norm_num [abs_lt, le_abs])
      (by rw [Int.ceil_eq_iff]; norm_num)
      (by apply toDouble_eq_some _ _ 5394937053620907 (-44) <;> norm_num [abs_lt, le_abs])
      (by norm_num [toDouble_zero])
  have hLO : postrollFoldDouble (7505999378950827 / 2 ^ 49) (-7505999378950827 / 2 ^ 47) = some (-1876499844737707 / 2 ^ 47) :=
    postrollFoldDouble_eq_some (7505999378950827 / 2 ^ 49)
        (-7505999378950827 / 2 ^ 47) 40 3 40 (-1876499844737707 / 2 ^ 47) 3
      (by norm_num)
      (by apply toDouble_eq_some _ _ 5629499534213120 (-47) <;> norm_num [abs_lt, le_abs])
      (by apply toDouble_eq_some _ _ 6755399441055744 (-51) <;> norm_num [abs_lt, le_abs])
      (by rw [Int.ceil_eq_iff]; norm_num)
      (by apply toDouble_eq_some _ _ 5629499534213120 (-47) <;> norm_num [abs_lt, le_abs])
      (by apply toDouble_eq_some _ _ (-7505999378950828) (-49) <;> norm_num [abs_lt, le_abs])
  have hHI : postrollFoldDouble (7505999378950827 / 2 ^ 49) (-(2 ^ 57 + 683 * 2 ^ 47)) = some 32 := by
    rw [show (-(2 ^ 57 + 683 * 2 ^ 47) : ℚ) = -240238892622544896 by norm_num]
    exact postrollFoldDouble_eq_some (7505999378950827 / 2 ^ 49)
          (-240238892622544896) 240238892622544896 18017916946690868 240238892622544928 32 18017916946690868
        (by norm_num)
        (by apply toDouble_eq_some _ _ 7507465394454528 5 <;> norm_num [abs_lt, le_abs])
        (by apply toDouble_eq_some _ _ 4504479236672717 2 <;> norm_num [abs_lt, le_abs])
        (by rw [Int.ceil_eq_iff]; norm_num)
        (by apply toDouble_eq_some _ _ 7507465394454529 5 <;> norm_num [abs_lt, le_abs])
        (by apply toDouble_eq_some _ _ 4503599627370496 (-47) <;> norm_num [abs_lt, le_abs])
  have hD : postrollFoldDouble (1 / 2 ^ 600) (-2 ^ 600) = none :=
    postrollFoldDouble_eq_none (1 / 2 ^ 600) (-2 ^ 600) (2 ^ 600)
      (by norm_num)
      (by apply toDouble_eq_some _ _ 9007199254740992 547 <;> norm_num [abs_lt, le_abs])
      (by apply toDouble_eq_none _ 4503599627370496 1148 <;> norm_num [abs_lt, le_abs])
  refine ⟨?_, ⟨?_, by norm_num, hV, by norm_num, ?_⟩, ⟨?_, by norm_num, hLO, by norm_num⟩,
    ⟨by norm_num, hHI, by norm_num⟩, ⟨by norm_num, by norm_num, hD⟩⟩
  · exact (by apply toDouble_eq_some _ _ 7505999378950827 (-49) <;> norm_num [abs_lt, le_abs])
  · exact (by apply toDouble_eq_some _ _ (-5394937053620907) (-44) <;> norm_num [abs_lt, le_abs])
  · rintro ⟨k, hk⟩
    have h1 : (23 : ℚ) < (k : ℚ) := by
      have : (23 : ℚ) * (7505999378950827 / 2 ^ 49) < (k : ℚ) * (7505999378950827 / 2 ^ 49) := by rw [← hk]; norm_num
      exact lt_of_mul_lt_mul_right this (by norm_num)
    have h2 : (k : ℚ) < 24 := by
      have : (k : ℚ) * (7505999378950827 / 2 ^ 49) < (24 : ℚ) * (7505999378950827 / 2 ^ 49) := by rw [← hk]; norm_num
      exact lt_of_mul_lt_mul_right this (by norm_num)
    have h3 : (23 : ℤ) < k := by exact_mod_cast h1
    have h4 : k < (24 : ℤ) := by exact_mod_cast h2
    omega
  · exact (by apply toDouble_eq_some _ _ (-7505999378950827) (-47) <;> norm_num [abs_lt, le_abs])

end allshader

/-! ## The marker texture cache -/

namespace allshader

/-- The scenario frame reaches the cache check at every zoom. -/
theorem reachesCacheCheck_frameAtZoom (v : ℚ) : reachesCacheCheck (frameAtZoom v) :=
  ⟨rfl, Or.inl (by norm_num [frameAtZoom])⟩

/-- C4 (the code does not keep the cache consistent at extreme zoom): at
`visualSamplePerPixel = 3e-7` the requested marker length is the `double`
133333333.33333334, `generateTexture` stores it narrowed to the `float`
133333336, and on the next frame with the same zoom the length test of the
guard finds a difference of about 2.67, above 0.5, so the guard fires again. -/
theorem narrowed_length_refires_guard :
    toDouble (3 / 10 ^ 7) = some (2833419889721787 / 2 ^ 73) ∧
    toDouble (40 / (2833419889721787 / 2 ^ 73)) = some (4473924266666667 / 2 ^ 25) ∧
    toFloat (4473924266666667 / 2 ^ 25) = some 133333336 ∧
    toDouble (133333336 - (4473924266666667 / 2 ^ 25)) = some (89478485 / 2 ^ 25) ∧
    |((89478485 / 2 ^ 25) : ℚ)| > epsilon ∧
    storedLengthGuard (2833419889721787 / 2 ^ 73) = some true := by
  have h1 : toDouble (40 / (2833419889721787 / 2 ^ 73)) = some (4473924266666667 / 2 ^ 25) :=
    (by apply toDouble_eq_some _ _ 8947848533333334 (-26) <;> norm_num [abs_lt, le_abs])
  have h2 : toFloat (4473924266666667 / 2 ^ 25) = some 133333336 :=
    (by apply toFloat_eq_some _ _ 16666667 3 <;> norm_num [abs_lt, le_abs])
  have h3 : toDouble (133333336 - (4473924266666667 / 2 ^ 25)) = some (89478485 / 2 ^ 25) :=
    (by apply toDouble_eq_some _ _ 6004799480791040 (-51) <;> norm_num [abs_lt, le_abs])
  have h4 : |((89478485 / 2 ^ 25) : ℚ)| > epsilon := by
    norm_num [epsilon, lt_abs]
  refine ⟨?_, h1, h2, h3, h4, ?_⟩
  · exact (by apply toDouble_eq_some _ _ 5666839779443574 (-74) <;> norm_num [abs_lt, le_abs])
  · unfold storedLengthGuard
    rw [h1, Option.some_bind, h2, Option.some_bind, h3, Option.some_bind, decide_eq_true h4]

end allshader

/-! ## Draw gating -/

namespace allshader

/-- C5: a frame issues no `drawPattern` call when no track is loaded, or when
neither zone is visible, or when no texture is held after the cache check;
otherwise it issues the preroll call (with `flip = true`) exactly when
`firstDisplayedPosition < 0` and the postroll call (with `flip = false`)
exactly when `lastDisplayedPosition > 1`, so that the number of draw calls is
`[firstDisplayedPosition < 0] + [lastDisplayedPosition > 1]`; with the fractions
`[-0.1, 0.05]` this is one preroll call and no postroll call. -/
theorem draw_gating (self : WaveformRendererPreroll) (r : WaveformWidgetRenderer) :
    ((r.trackInfo = false ∨
        (¬ r.firstDisplayedPosition < 0 ∧ ¬ r.lastDisplayedPosition > 1) ∨
        (paintGL self r).1.m_pTexture = none) →
      drawCalls (paintGL self r).2 = []) ∧
    ((r.trackInfo = true ∧ (r.firstDisplayedPosition < 0 ∨ r.lastDisplayedPosition > 1) ∧
        (paintGL self r).1.m_pTexture ≠ none) →
      drawCalls (paintGL self r).2 =
          (if r.firstDisplayedPosition < 0 then [prerollDraw r] else []) ++
            (if r.lastDisplayedPosition > 1 then [postrollDraw r] else []) ∧
        (drawCalls (paintGL self r).2).length =
          (if r.firstDisplayedPosition < 0 then 1 else 0) +
            (if r.lastDisplayedPosition > 1 then 1 else 0)) ∧
    (prerollDraw r).flip = true ∧ (postrollDraw r).flip = false ∧
    (r.trackInfo = true → r.firstDisplayedPosition = -1 / 10 →
      r.lastDisplayedPosition = 1 / 20 → (paintGL self r).1.m_pTexture ≠ none →
        drawCalls (paintGL self r).2 = [prerollDraw r]) := by
  have hdraw : reachesCacheCheck r → (paintGL self r).1.m_pTexture ≠ none →
      drawCalls (paintGL self r).2 =
        (if r.firstDisplayedPosition < 0 then [prerollDraw r] else []) ++
          (if r.lastDisplayedPosition > 1 then [postrollDraw r] else []) := by
    intro hr hx
    rw [paintGL_fst self r hr] at hx
    rw [paintGL_texture self r hr hx]
    simp only [drawCalls_append, drawCalls_cacheCheck, List.nil_append]
    by_cases hf : r.firstDisplayedPosition < 0 <;>
      by_cases hl : r.lastDisplayedPosition > 1 <;>
      simp [hf, hl, drawCalls, prerollDraw, postrollDraw]
  refine ⟨?_, ?_, rfl, rfl, ?_⟩
  · rintro (ht | ⟨hf, hl⟩ | hx)
    · rw [paintGL_no_track self r ht]
      rfl
    · rw [paintGL_not_visible self r hf hl]
      rfl
    · by_cases hr : reachesCacheCheck r
      · rw [paintGL_fst self r hr] at hx
        rw [paintGL_no_texture self r hr hx]
        exact drawCalls_cacheCheck self r
      · rw [paintGL_not_reaches self r hr]
        rfl
  · rintro ⟨ht, hv, hx⟩
    have e := hdraw ⟨ht, hv⟩ hx
    refine ⟨e, ?_⟩
    rw [e]
    by_cases hf : r.firstDisplayedPosition < 0 <;>
      by_cases hl : r.lastDisplayedPosition > 1 <;>
      simp [hf, hl]
  · intro ht hf hl hx
    have h1 : r.firstDisplayedPosition < 0 := by rw [hf]; norm_num
    have h2 : ¬ r.lastDisplayedPosition > 1 := by rw [hl]; norm_num
    rw [hdraw ⟨ht, Or.inl h1⟩ hx, if_pos h1, if_neg h2]
    rfl

/-- Instance of `draw_gating`: the end-to-end scenario (fractions `[-0.1, 0.05]`,
4 visual samples per pixel) painted on an empty cache issues exactly the
preroll call. -/
theorem draw_gating_witness :
    (frameAtZoom 4).trackInfo = true ∧ (frameAtZoom 4).firstDisplayedPosition = -1 / 10 ∧
      (frameAtZoom 4).lastDisplayedPosition = 1 / 20 ∧
      (paintGL ⟨0, 0, none⟩ (frameAtZoom 4)).1.m_pTexture ≠ none ∧
      drawCalls (paintGL ⟨0, 0, none⟩ (frameAtZoom 4)).2 = [prerollDraw (frameAtZoom 4)] := by
  have hx : (paintGL ⟨0, 0, none⟩ (frameAtZoom 4)).1.m_pTexture ≠ none := by
    rw [paintGL_fst _ _ (reachesCacheCheck_frameAtZoom 4)]
    have hn : needsRegeneration ⟨0, 0, none⟩ (markerLength (frameAtZoom 4).visualSamplePerPixel)
        (markerBreadth (frameAtZoom 4).breadth) := by
      left
      norm_num [frameAtZoom, markerLength, epsilon]
    rw [cacheCheck_of_needs _ _ hn]
    simp [generateTexture, frameAtZoom, textureOf]
  exact ⟨rfl, rfl, rfl, hx, (draw_gating ⟨0, 0, none⟩ (frameAtZoom 4)).2.2.2.2 rfl rfl rfl hx⟩

end allshader

/-! ## Anchors, repetitions and marker length -/

namespace allshader

/-- C6: on every frame of a consistent viewport (positive zoom, non-negative
viewport length, `int` positions), each `drawPattern` call issued by `paintGL`
has `repetitions = |b - a| / markerLength` exactly, where `a` is the (possibly
folded) anchor and `b` the opposite edge of the drawn quad, `b = 0` for the
preroll zone and `b = getLength()` for the postroll zone; equivalently the
extent `x2 - x1` of the quad equals `repetitions * markerLength`. -/
theorem repetitions_value (self : WaveformRendererPreroll) (r : WaveformWidgetRenderer)
    (hv : 0 < r.visualSamplePerPixel) (hL : 0 ≤ r.length)
    (hc : isInt r.playPosVSample) (ht : isInt r.totalVSample)
    (hview : viewportConsistent r) :
    (∀ call ∈ drawCalls (paintGL self r).2,
      call.repetitions = |call.x2 - call.x1| / markerLength r.visualSamplePerPixel ∧
        call.x2 - call.x1 = call.repetitions * markerLength r.visualSamplePerPixel) ∧
    (r.firstDisplayedPosition < 0 →
      (prerollDraw r).x1 = 0 ∧
      (prerollDraw r).x2 = prerollFold r.length (markerLength r.visualSamplePerPixel)
        (prerollAnchor r.playMarkerPosition r.length r.visualSamplePerPixel
          r.playPosVSample) ∧
      (prerollDraw r).repetitions
        = |0 - (prerollDraw r).x2| / markerLength r.visualSamplePerPixel) ∧
    (r.lastDisplayedPosition > 1 →
      (postrollDraw r).x2 = r.length ∧
      (postrollDraw r).x1 = postrollFold (markerLength r.visualSamplePerPixel)
        (postrollAnchor r.playMarkerPosition r.length r.visualSamplePerPixel
          r.playPosVSample r.totalVSample) ∧
      (postrollDraw r).repetitions
        = |r.length - (postrollDraw r).x1| / markerLength r.visualSamplePerPixel) := by
  have hp : markerLength r.visualSamplePerPixel ≠ 0 := by
    unfold markerLength
    exact (div_pos (by norm_num) hv).ne'
  have hpre : r.firstDisplayedPosition < 0 →
      (prerollDraw r).repetitions
          = |(prerollDraw r).x2 - (prerollDraw r).x1| / markerLength r.visualSamplePerPixel ∧
        (prerollDraw r).x2 - (prerollDraw r).x1
          = (prerollDraw r).repetitions * markerLength r.visualSamplePerPixel := by
    intro hf
    have hpos := prerollDraw_x2_pos r hv hL hview hf
    have h1 : (prerollDraw r).x1 = 0 := rfl
    have h2 : (prerollDraw r).repetitions
        = (prerollDraw r).x2 / markerLength r.visualSamplePerPixel := rfl
    rw [h1, sub_zero, abs_of_pos hpos, h2, div_mul_cancel₀ _ hp]
    exact ⟨rfl, rfl⟩
  have hpost : r.lastDisplayedPosition > 1 →
      (postrollDraw r).repetitions
          = |(postrollDraw r).x2 - (postrollDraw r).x1| / markerLength r.visualSamplePerPixel ∧
        (postrollDraw r).x2 - (postrollDraw r).x1
          = (postrollDraw r).repetitions * markerLength r.visualSamplePerPixel := by
    intro hl
    have hlt := postrollDraw_x1_lt r hv hL hc ht hview hl
    have h1 : (postrollDraw r).x2 = r.length := rfl
    have h2 : (postrollDraw r).repetitions
        = (r.length - (postrollDraw r).x1) / markerLength r.visualSamplePerPixel := rfl
    rw [h1, abs_of_pos (sub_pos.mpr hlt), h2, div_mul_cancel₀ _ hp]
    exact ⟨rfl, rfl⟩
  refine ⟨?_, ?_, ?_⟩
  · intro call hmem
    rcases mem_drawCalls_paintGL self r call hmem with ⟨hf, rfl⟩ | ⟨hl, rfl⟩
    · exact hpre hf
    · exact hpost hl
  · intro hf
    refine ⟨rfl, rfl, ?_⟩
    have h := (hpre hf).1
    have h1 : (prerollDraw r).x1 = 0 := rfl
    rw [h1, sub_zero] at h
    rw [zero_sub, abs_neg]
    exact h
  · intro hl
    refine ⟨rfl, rfl, ?_⟩
    have h := (hpost hl).1
    have h1 : (postrollDraw r).x2 = r.length := rfl
    rw [h1] at h
    exact h

/-- The frames `frameOfViewport` follow the viewport model. -/
theorem viewportConsistent_frameOfViewport (v : ℚ) (c t : ℤ) (ht : 0 < t) :
    viewportConsistent (frameOfViewport v c t) := by
  have htq : ((t : ℤ) : ℚ) ≠ 0 := by exact_mod_cast ht.ne'
  refine ⟨ht, ?_, ?_⟩
  · simp only [frameOfViewport]
    field_simp
    ring
  · simp only [frameOfViewport]
    field_simp
    ring

/-- Instance of `repetitions_value`: at 4 visual samples per pixel on a track of
1,000,000 visual samples, the frame 420 visual samples before the start draws
the preroll zone up to the folded anchor 105 with 10.5 repetitions, and the
frame 100 visual samples before the end draws the postroll zone from the
anchor 75 with 2.5 repetitions. -/
theorem repetitions_value_witness :
    (0 < (frameOfViewport 4 (-420) 1000000).visualSamplePerPixel ∧
      0 ≤ (frameOfViewport 4 (-420) 1000000).length ∧
      isInt (frameOfViewport 4 (-420) 1000000).playPosVSample ∧
      isInt (frameOfViewport 4 (-420) 1000000).totalVSample ∧
      viewportConsistent (frameOfViewport 4 (-420) 1000000) ∧
      (frameOfViewport 4 (-420) 1000000).firstDisplayedPosition < 0 ∧
      (prerollDraw (frameOfViewport 4 (-420) 1000000)).x2 = 105 ∧
      (prerollDraw (frameOfViewport 4 (-420) 1000000)).repetitions = 21 / 2 ∧
      (prerollDraw (frameOfViewport 4 (-420) 1000000)).repetitions
        = |0 - (prerollDraw (frameOfViewport 4 (-420) 1000000)).x2|
          / markerLength (frameOfViewport 4 (-420) 1000000).visualSamplePerPixel) ∧
    (0 < (frameOfViewport 4 999900 1000000).visualSamplePerPixel ∧
      0 ≤ (frameOfViewport 4 999900 1000000).length ∧
      isInt (frameOfViewport 4 999900 1000000).playPosVSample ∧
      isInt (frameOfViewport 4 999900 1000000).totalVSample ∧
      viewportConsistent (frameOfViewport 4 999900 1000000) ∧
      (frameOfViewport 4 999900 1000000).lastDisplayedPosition > 1 ∧
      (postrollDraw (frameOfViewport 4 999900 1000000)).x1 = 75 ∧
      (postrollDraw (frameOfViewport 4 999900 1000000)).repetitions = 5 / 2 ∧
      (postrollDraw (frameOfViewport 4 999900 1000000)).repetitions
        = |(frameOfViewport 4 999900 1000000).length
            - (postrollDraw (frameOfViewport 4 999900 1000000)).x1|
          / markerLength (frameOfViewport 4 999900 1000000).visualSamplePerPixel) := by
  have hm : markerLength 4 = 10 := by norm_num [markerLength]
  have a1 : 0 < (frameOfViewport 4 (-420) 1000000).visualSamplePerPixel := by
    norm_num [frameOfViewport]
  have a2 : 0 ≤ (frameOfViewport 4 (-420) 1000000).length := by norm_num [frameOfViewport]
  have a3 : isInt (frameOfViewport 4 (-420) 1000000).playPosVSample := by
    norm_num [frameOfViewport, isInt]
  have a4 : isInt (frameOfViewport 4 (-420) 1000000).totalVSample := by
    norm_num [frameOfViewport, isInt]
  have a5 := viewportConsistent_frameOfViewport 4 (-420) 1000000 (by norm_num)
  have a6 : (frameOfViewport 4 (-420) 1000000).firstDisplayedPosition < 0 := by
    norm_num [frameOfViewport]
  have a7 : prerollDraw (frameOfViewport 4 (-420) 1000000)
      = Call.drawPattern 0 15 105 35 (21 / 2) true := by
    have e : prerollAnchor (1 / 2) 100 4 (-420) = 155 := by norm_num [prerollAnchor]
    have f : prerollFold 100 10 155 = 105 := by
      rw [prerollFold_of_ge 100 10 155 (by norm_num)]
      have hceil : ⌈((155 : ℚ) - (100 + 10)) / 10⌉ = 5 := by
        rw [Int.ceil_eq_iff]
        norm_num
      rw [hceil]
      norm_num
    simp only [prerollDraw, frameOfViewport, hm, e, f, markerBreadth]
    norm_num
  have b1 : 0 < (frameOfViewport 4 999900 1000000).visualSamplePerPixel := by
    norm_num [frameOfViewport]
  have b2 : 0 ≤ (frameOfViewport 4 999900 1000000).length := by norm_num [frameOfViewport]
  have b3 : isInt (frameOfViewport 4 999900 1000000).playPosVSample := by
    norm_num [frameOfViewport, isInt]
  have b4 : isInt (frameOfViewport 4 999900 1000000).totalVSample := by
    norm_num [frameOfViewport, isInt]
  have b5 := viewportConsistent_frameOfViewport 4 999900 1000000 (by norm_num)
  have b6 : (frameOfViewport 4 999900 1000000).lastDisplayedPosition > 1 := by
    norm_num [frameOfViewport]
  have b7 : postrollDraw (frameOfViewport 4 999900 1000000)
      = Call.drawPattern 75 15 100 35 (5 / 2) false := by
    have e : postrollAnchor (1 / 2) 100 4 999900 1000000 = 75 := by
      have w : wrapInt (1000000 - 999900) = 100 := by
        unfold wrapInt
        norm_num
      simp only [postrollAnchor, w]
      norm_num
    have f : postrollFold 10 75 = 75 := postrollFold_of_gt 10 75 (by norm_num)
    simp only [postrollDraw, frameOfViewport, hm, e, f, markerBreadth]
    norm_num
  refine ⟨⟨a1, a2, a3, a4, a5, a6, by rw [a7]; rfl, by rw [a7]; rfl,
      ((repetitions_value ⟨0, 0, none⟩ _ a1 a2 a3 a4 a5).2.1 a6).2.2⟩,
    ⟨b1, b2, b3, b4, b5, b6, by rw [b7]; rfl, by rw [b7]; rfl,
      ((repetitions_value ⟨0, 0, none⟩ _ b1 b2 b3 b4 b5).2.2 b6).2.2⟩⟩

/-- C7: for every `v > 0` the marker length is `40 / v`: its product with `v`
is the constant 40, halving `v` doubles it, and `v = 4` gives 10 pixels; this
is the length that `paintGL` hands to `generateTexture`. -/
theorem markerLength_inverse (v : ℚ) (hv : 0 < v) :
    markerLength v = 40 / v ∧ markerLength v * v = 40 ∧
      markerLength (v / 2) = 2 * markerLength v ∧ markerLength 4 = 10 ∧
      (∀ (self : WaveformRendererPreroll) (r : WaveformWidgetRenderer) (a b : ℚ),
        r.visualSamplePerPixel = v → Call.generateTexture a b ∈ (paintGL self r).2 →
          a = 40 / v) := by
  refine ⟨rfl, ?_, ?_, by norm_num [markerLength], ?_⟩
  · unfold markerLength
    exact div_mul_cancel₀ _ hv.ne'
  · unfold markerLength
    field_simp
    norm_num
  · intro self r a b hrv hmem
    by_cases hr : reachesCacheCheck r
    · have hin : Call.generateTexture a b ∈ (cacheCheck self r).2 := by
        by_cases hx : (cacheCheck self r).1.m_pTexture = none
        · rwa [paintGL_no_texture self r hr hx] at hmem
        · rw [paintGL_texture self r hr hx] at hmem
          by_cases hf : r.firstDisplayedPosition < 0 <;>
            by_cases hl : r.lastDisplayedPosition > 1 <;>
            simpa [hf, hl, prerollDraw, postrollDraw] using hmem
      by_cases h : needsRegeneration self (markerLength r.visualSamplePerPixel)
          (markerBreadth r.breadth)
      · rw [cacheCheck_of_needs self r h] at hin
        simp only [List.mem_singleton, Call.generateTexture.injEq] at hin
        rw [hin.1, hrv]
        rfl
      · rw [cacheCheck_of_not_needs self r h] at hin
        simp at hin
    · rw [paintGL_not_reaches self r hr] at hmem
      simp at hmem

/-- Instance of `markerLength_inverse`: 4 visual samples per pixel. -/
theorem markerLength_inverse_witness :
    (0 : ℚ) < 4 ∧ markerLength 4 = 40 / 4 ∧ markerLength 4 * 4 = 40 ∧
      markerLength (4 / 2) = 2 * markerLength 4 ∧ markerLength 4 = 10 :=
  ⟨by norm_num, (markerLength_inverse 4 (by norm_num)).1,
    (markerLength_inverse 4 (by norm_num)).2.1, (markerLength_inverse 4 (by norm_num)).2.2.1,
    (markerLength_inverse 4 (by norm_num)).2.2.2.1⟩

/-- C9 (as amended): for every `v > 0`, viewport length `L`, play marker
position `m` and `int` positions `c` and `t`, the unfolded preroll anchor is
`m * L - c / v`; if the difference `t - c` does not overflow an `int`
(line 124), the unfolded postroll anchor is `m * L + (t - c) / v` and the
postroll anchor minus the preroll anchor is `t / v`; these are the anchors on
which the two blocks of `paintGL` apply their folds. -/
theorem raw_anchors (m L v : ℚ) (c t : ℤ) (hv : 0 < v) :
    prerollAnchor m L v c = m * L - (c : ℚ) / v ∧
      (isInt (t - c) →
        postrollAnchor m L v c t = m * L + ((t : ℚ) - (c : ℚ)) / v ∧
          postrollAnchor m L v c t - prerollAnchor m L v c = (t : ℚ) / v) ∧
      (∀ r : WaveformWidgetRenderer,
        (prerollDraw r).x2 = prerollFold r.length (markerLength r.visualSamplePerPixel)
            (prerollAnchor r.playMarkerPosition r.length r.visualSamplePerPixel
              r.playPosVSample) ∧
          (postrollDraw r).x1 = postrollFold (markerLength r.visualSamplePerPixel)
            (postrollAnchor r.playMarkerPosition r.length r.visualSamplePerPixel
              r.playPosVSample r.totalVSample)) := by
  have h0 : v ≠ 0 := hv.ne'
  have e1 : prerollAnchor m L v c = m * L - (c : ℚ) / v := by
    simp only [prerollAnchor]
    field_simp
    ring
  refine ⟨e1, ?_, fun r => ⟨rfl, rfl⟩⟩
  intro hdiff
  have e2 : postrollAnchor m L v c t = m * L + ((t : ℚ) - (c : ℚ)) / v := by
    simp only [postrollAnchor, wrapInt_of_isInt (t - c) hdiff]
    push_cast
    field_simp
    ring
  refine ⟨e2, ?_⟩
  rw [e1, e2]
  field_simp

/-- Instance of `raw_anchors`: 4 visual samples per pixel, viewport 100, play
marker at the centre, position 440 of 1,000,000. -/
theorem raw_anchors_witness :
    (0 : ℚ) < 4 ∧ isInt (1000000 - 440) ∧
      prerollAnchor (1 / 2) 100 4 440 = 1 / 2 * 100 - ((440 : ℤ) : ℚ) / 4 ∧
      postrollAnchor (1 / 2) 100 4 440 1000000
        = 1 / 2 * 100 + (((1000000 : ℤ) : ℚ) - ((440 : ℤ) : ℚ)) / 4 ∧
      postrollAnchor (1 / 2) 100 4 440 1000000 - prerollAnchor (1 / 2) 100 4 440
        = ((1000000 : ℤ) : ℚ) / 4 :=
  ⟨by norm_num, by norm_num [isInt],
    (raw_anchors (1 / 2) 100 4 440 1000000 (by norm_num)).1,
    ((raw_anchors (1 / 2) 100 4 440 1000000 (by norm_num)).2.1 (by norm_num [isInt])).1,
    ((raw_anchors (1 / 2) 100 4 440 1000000 (by norm_num)).2.1 (by norm_num [isInt])).2⟩

/-- C9 (as stated) fails when the `int` subtraction of line 124 overflows: with
a track of 2147483647 visual samples played at position -1, at 4 visual samples
per pixel with the play marker at the left edge, `t - c` wraps to -2147483648
and the postroll anchor is -536870912 pixels, whereas `m * L + (t - c) / v` is
536870912; the anchors then differ by `-536870912.25`, not by `t / v`. -/
theorem raw_anchors_overflow :
    isInt (-1) ∧ isInt 2147483647 ∧ ¬ isInt (2147483647 - -1) ∧
      wrapInt (2147483647 - -1) = -2147483648 ∧
      postrollAnchor 0 100 4 (-1) 2147483647 = -536870912 ∧
      (0 : ℚ) * 100 + (((2147483647 : ℤ) : ℚ) - ((-1 : ℤ) : ℚ)) / 4 = 536870912 ∧
      postrollAnchor 0 100 4 (-1) 2147483647
        ≠ 0 * 100 + (((2147483647 : ℤ) : ℚ) - ((-1 : ℤ) : ℚ)) / 4 ∧
      postrollAnchor 0 100 4 (-1) 2147483647 - prerollAnchor 0 100 4 (-1)
        ≠ ((2147483647 : ℤ) : ℚ) / 4 := by
  have w : wrapInt (2147483647 - -1) = -2147483648 := by
    unfold wrapInt
    norm_num
  have e : postrollAnchor 0 100 4 (-1) 2147483647 = -536870912 := by
    simp only [postrollAnchor, w]
    norm_num
  have f : prerollAnchor 0 100 4 (-1) = 1 / 4 := by norm_num [prerollAnchor]
  refine ⟨by norm_num [isInt], by norm_num [isInt], by norm_num [isInt], w, e, by norm_num,
    ?_, ?_⟩
  · rw [e]
    norm_num
  · rw [e, f]
    norm_num

end allshader

/-! ## Held-key suppression -/

namespace KeyboardEventFilter

/-- C10: `shouldSkipHeldKey keyId` returns true if and only if the active key
list has an entry with that `keyId` whose control is not keyboard-repeatable;
it returns false on the empty list, and the active key list is unchanged. -/
theorem shouldSkipHeldKey_iff (getKbdRepeatable : ControlObjectPtr → Bool)
    (m_qActiveKeyList : List KeyDownInformation) (keyId : ℤ) :
    ((shouldSkipHeldKey getKbdRepeatable m_qActiveKeyList keyId).1 = true ↔
      ∃ keyDownInfo ∈ m_qActiveKeyList,
        keyDownInfo.keyId = keyId ∧ getKbdRepeatable keyDownInfo.pControl = false) ∧
    (shouldSkipHeldKey getKbdRepeatable [] keyId).1 = false ∧
    (shouldSkipHeldKey getKbdRepeatable m_qActiveKeyList keyId).2 = m_qActiveKeyList := by
  refine ⟨?_, rfl, rfl⟩
  simp only [shouldSkipHeldKey]
  induction m_qActiveKeyList with
  | nil => simp [shouldSkipHeldKeyLoop]
  | cons e rest ih =>
    by_cases h : e.keyId = keyId ∧ getKbdRepeatable e.pControl = false
    · simp [shouldSkipHeldKeyLoop, h]
    · have h2 : ¬ (e.keyId = keyId ∧ (!getKbdRepeatable e.pControl) = true) := by
        simpa using h
      simp only [shouldSkipHeldKeyLoop, if_neg h2, ih, List.mem_cons, exists_eq_or_imp]
      constructor
      · intro hx
        exact Or.inr hx
      · rintro (hx | hx)
        · exact absurd hx h
        · exact hx

end KeyboardEventFilter
